import Mathlib

/-!
Verification of the sparse-circuit analysis server (`apps/sparsity/server.py`).

The embedding models the weight tensors of each MLP layer as rational
matrices given by lists of rows together with their shape metadata, and the
Python functions as Lean functions over this model:

* Python exceptions (`IndexError`, uncaught errors) and HTTP error responses
  are modelled with `Except SErr`; plain fallible lookups use `Option`.
* Python sequence indexing (`xs[i]`, negative indices wrap) is `pyIdx`/`pyGet`,
  and Python slicing `xs[:k]` (negative `k` drops from the end) is `pySlice`.
* `list.sort(key=..., reverse=True)` / `sorted(..., reverse=True)` are stable
  descending sorts, embedded with `List.insertionSort` on a `≥`-by-key
  relation, which has exactly the stable descending-sort semantics.
* The recursive trace functions are embedded fuel-indexed
  (`traceFwdF`/`traceBwdF`); `FUEL` fuel is proven sufficient for every
  depth argument, which is the termination argument of the Python code.
-/

/-- Weights: the server's float weights are modelled as rationals. -/
abbrev W := Rat

/-- Errors: an uncaught Python exception (IndexError etc.), fuel exhaustion of
the fuel-indexed embedding, or an HTTP error response with status and detail. -/
inductive SErr where
  | exc : SErr
  | fuelOut : SErr
  | http : Int → String → SErr
deriving DecidableEq, Repr

/-- Sequencing of fallible computations: Python statements raise and abort. -/
def bindE {α β : Type} (x : Except SErr α) (k : α → Except SErr β) : Except SErr β :=
  match x with
  | .error e => .error e
  | .ok v => k v

/-- Lift an `Option`-valued lookup: `none` is an uncaught Python exception. -/
def liftO {α : Type} : Option α → Except SErr α
  | none => .error .exc
  | some a => .ok a

/-- Left-to-right effectful map, aborting at the first error (a Python `for`
loop that appends one output per element). -/
def mapE {α β : Type} (f : α → Except SErr β) : List α → Except SErr (List β)
  | [] => .ok []
  | a :: as =>
    match f a with
    | .error e => .error e
    | .ok b =>
      match mapE f as with
      | .error e => .error e
      | .ok bs => .ok (b :: bs)

/-- Sequence a list of fallible list-computations and concatenate the results
(the doubly nested `for` loops of the trace functions). -/
def joinE {β : Type} : List (Except SErr (List β)) → Except SErr (List β)
  | [] => .ok []
  | x :: xs =>
    match x with
    | .error e => .error e
    | .ok l =>
      match joinE xs with
      | .error e => .error e
      | .ok r => .ok (l ++ r)

/-- Python indexing into a sequence of length `n`: index `i` with `0 ≤ i < n`
is used as is, `-n ≤ i < 0` wraps to `n + i`, anything else raises. -/
def pyIdx (n : Nat) (i : Int) : Option Nat :=
  if 0 ≤ i then
    if i < (n : Int) then some i.toNat else none
  else
    if (n : Int) + i < 0 then none else some ((n : Int) + i).toNat

/-- Python `xs[i]` on a list. -/
def pyGet {α : Type} (l : List α) (i : Int) : Option α :=
  (pyIdx l.length i).bind (fun k => l.get? k)

/-- Python `xs[:k]`: for `k ≥ 0` the first `k` elements, for `k < 0` all but
the last `-k` elements. -/
def pySlice {α : Type} (l : List α) (k : Int) : List α :=
  if 0 ≤ k then l.take k.toNat else l.take ((l.length : Int) + k).toNat

/-- Python `range(a, b)` as a list of integers. -/
def intRange (a b : Int) : List Int :=
  (List.range (b - a).toNat).map (fun (k : Nat) => a + (k : Int))

/-- Python `range(a - 1, -1, -1)`: the integers `a-1, a-2, ..., 0`. -/
def downRange (a : Int) : List Int :=
  ((List.range a.toNat).reverse).map (fun (k : Nat) => (k : Int))

/-- Fallible map over `Option` (elementwise tensor access). -/
def mapO {α β : Type} (f : α → Option β) : List α → Option (List β)
  | [] => some []
  | a :: as =>
    match f a with
    | none => none
    | some b =>
      match mapO f as with
      | none => none
      | some bs => some (b :: bs)

/-- Row `i` of a tensor with `rows` rows given as a list of rows:
the bounds check is against the shape, as for a torch tensor. -/
def tRow (m : List (List W)) (rows : Nat) (i : Int) : Option (List W) :=
  (pyIdx rows i).bind (fun k => m.get? k)

/-- Column `j` of a tensor with `cols` columns given as a list of rows. -/
def tCol (m : List (List W)) (cols : Nat) (j : Int) : Option (List W) :=
  (pyIdx cols j).bind (fun k => mapO (fun row => row.get? k) m)

/-- A connection between a neuron and a residual channel
(`{"channel_id": i, "weight": w}` in the server). -/
structure Conn where
  channel_id : Int
  weight : W
deriving DecidableEq, Repr

/-- A neuron entry (`{"neuron_id": i, "weight": w}` in the server). -/
structure NEntry where
  neuron_id : Int
  weight : W
deriving DecidableEq, Repr

/-- Result of `neuron_get_connected_reschannels`: the nonzero in- and
out-connections of one neuron (keys `"in"` and `"out"`). -/
structure Conns where
  in_conns : List Conn
  out_conns : List Conn
deriving DecidableEq, Repr

/-- One MLP layer: shapes `c_fc : [mlpSize, dModel]`, `c_proj : [dModel, mlpSize]`,
with the weight matrices as lists of rows. -/
structure MLayer where
  mlpSize : Nat
  dModel : Nat
  c_fc : List (List W)
  c_proj : List (List W)
deriving DecidableEq, Repr

/-- The loaded model: `model.circuit_model.transformer["h"]`. -/
structure Model where
  layers : List MLayer
deriving DecidableEq, Repr

def Model.numLayers (M : Model) : Nat := M.layers.length

/-- The matrices of a layer actually have the advertised shapes
(true of every torch tensor; needed for in-range accesses to succeed). -/
def MLayer.WF (L : MLayer) : Prop :=
  L.c_fc.length = L.mlpSize ∧ (∀ r ∈ L.c_fc, r.length = L.dModel) ∧
    L.c_proj.length = L.dModel ∧ (∀ r ∈ L.c_proj, r.length = L.mlpSize)

/-- `d_model` of the model as read by the server: `layers[0].mlp.c_proj.weight.shape[0]`. -/
def Model.dModel0 (M : Model) : Nat :=
  (M.layers.headD ⟨0, 0, [], []⟩).dModel

/-- All layers are well-formed and share the residual width `dModel`. -/
def Model.WF (M : Model) : Prop :=
  ∀ L ∈ M.layers, L.WF ∧ L.dModel = M.dModel0

instance (L : MLayer) : Decidable L.WF := by
  unfold MLayer.WF; infer_instance

instance (M : Model) : Decidable M.WF := by
  unfold Model.WF; infer_instance

/-- `[{"channel_id": i, "weight": w} for i, w in enumerate(ws) if w != 0]`,
with the enumeration counter starting at `k`. -/
def nonzeroConnsFrom (k : Nat) : List W → List Conn
  | [] => []
  | w :: ws =>
    if w ≠ 0 then ⟨(k : Int), w⟩ :: nonzeroConnsFrom (k + 1) ws
    else nonzeroConnsFrom (k + 1) ws

def nonzeroConns (ws : List W) : List Conn := nonzeroConnsFrom 0 ws

/-- `[{"neuron_id": i, "weight": w} for i, w in enumerate(ws) if w != 0]`. -/
def nonzeroEntriesFrom (k : Nat) : List W → List NEntry
  | [] => []
  | w :: ws =>
    if w ≠ 0 then ⟨(k : Int), w⟩ :: nonzeroEntriesFrom (k + 1) ws
    else nonzeroEntriesFrom (k + 1) ws

def nonzeroEntries (ws : List W) : List NEntry := nonzeroEntriesFrom 0 ws

/-- Descending sort by absolute weight (`sorted(..., key=abs-weight, reverse=True)`);
`insertionSort` with a `≥` relation is exactly a stable descending sort. -/
def sortConnsByAbs (l : List Conn) : List Conn :=
  List.insertionSort (fun a b => |b.weight| ≤ |a.weight|) l

def sortEntriesByAbs (l : List NEntry) : List NEntry :=
  List.insertionSort (fun a b => |b.weight| ≤ |a.weight|) l

/-- `neuron_get_connected_reschannels(layer_idx, neuron_idx)`. -/
def neuron_get_connected_reschannels (M : Model) (layer_idx neuron_idx : Int) :
    Option Conns :=
  (pyGet M.layers layer_idx).bind (fun L =>
    (tRow L.c_fc L.mlpSize neuron_idx).bind (fun c_fc_weights =>
      (tCol L.c_proj L.mlpSize neuron_idx).map (fun c_proj_weights =>
        ⟨nonzeroConns c_fc_weights, nonzeroConns c_proj_weights⟩)))

/-- `find_neurons_reading_channel(layer_idx, channel_id, top_k)`. -/
def find_neurons_reading_channel (M : Model) (layer_idx channel_id top_k : Int) :
    Option (List NEntry) :=
  (pyGet M.layers layer_idx).bind (fun L =>
    (tCol L.c_fc L.dModel channel_id).map (fun ws =>
      pySlice (sortEntriesByAbs (nonzeroEntries ws)) top_k))

/-- `find_neurons_writing_channel(layer_idx, channel_id, top_k)`. -/
def find_neurons_writing_channel (M : Model) (layer_idx channel_id top_k : Int) :
    Option (List NEntry) :=
  (pyGet M.layers layer_idx).bind (fun L =>
    (tRow L.c_proj L.dModel channel_id).map (fun ws =>
      pySlice (sortEntriesByAbs (nonzeroEntries ws)) top_k))

/-- A node of the forward trace tree: fields `layer`, `neuron`, `read_weight`,
`via_channel`, `write_weight`, `children` (Python `None` is `none`). -/
inductive FNode where
  | mk : Int → Int → W → Int → W → Option (List FNode) → FNode

def FNode.layer : FNode → Int
  | .mk l _ _ _ _ _ => l

def FNode.neuron : FNode → Int
  | .mk _ n _ _ _ _ => n

def FNode.read_weight : FNode → W
  | .mk _ _ r _ _ _ => r

def FNode.via_channel : FNode → Int
  | .mk _ _ _ c _ _ => c

def FNode.write_weight : FNode → W
  | .mk _ _ _ _ w _ => w

def FNode.children : FNode → Option (List FNode)
  | .mk _ _ _ _ _ c => c

/-- A node of the backward trace tree: fields `layer`, `neuron`, `write_weight`,
`via_channel`, `read_weight`, `parents`. -/
inductive BNode where
  | mk : Int → Int → W → Int → W → Option (List BNode) → BNode

def BNode.layer : BNode → Int
  | .mk l _ _ _ _ _ => l

def BNode.neuron : BNode → Int
  | .mk _ n _ _ _ _ => n

def BNode.write_weight : BNode → W
  | .mk _ _ w _ _ _ => w

def BNode.via_channel : BNode → Int
  | .mk _ _ _ c _ _ => c

def BNode.read_weight : BNode → W
  | .mk _ _ _ _ r _ => r

def BNode.parents : BNode → Option (List BNode)
  | .mk _ _ _ _ _ p => p

/-- Ranking score of a trace entry: `abs(write_weight) * abs(read_weight)`. -/
def fprod (x : FNode) : W := |x.write_weight| * |x.read_weight|

def bprod (x : BNode) : W := |x.write_weight| * |x.read_weight|

/-- `result.sort(key=lambda x: abs(write_weight)*abs(read_weight), reverse=True)`. -/
def sortFNodes (l : List FNode) : List FNode :=
  List.insertionSort (fun a b => fprod b ≤ fprod a) l

def sortBNodes (l : List BNode) : List BNode :=
  List.insertionSort (fun a b => bprod b ≤ bprod a) l

/-- Fuel-indexed embedding of `trace_from_neuron` inside
`trace_circuit_forward`; the fuel only bounds the recursion depth of the
embedding and `FUEL` fuel is proven sufficient for every `depth`. -/
def traceFwdF (M : Model) (top_k : Int) :
    Nat → Int → Int → Int → Except SErr (Option (List FNode))
  | 0, _, _, _ => .error .fuelOut
  | fuel + 1, layer, neuron, depth =>
    if depth = 0 ∨ (M.numLayers : Int) - 1 ≤ layer then .ok none
    else
      bindE (liftO (neuron_get_connected_reschannels M layer neuron)) (fun connections =>
        bindE (mapE (fun ch =>
            bindE (mapE (fun next_layer =>
                bindE (liftO (find_neurons_reading_channel M next_layer ch.channel_id top_k))
                  (fun readers =>
                    mapE (fun reader =>
                        bindE (traceFwdF M top_k fuel next_layer reader.neuron_id (depth - 1))
                          (fun c =>
                            .ok (FNode.mk next_layer reader.neuron_id reader.weight
                              ch.channel_id ch.weight c)))
                      readers))
              (intRange (layer + 1) (M.numLayers : Int)))
              (fun per_layer => .ok per_layer.flatten))
          (pySlice (sortConnsByAbs connections.out_conns) top_k))
          (fun groups =>
            .ok (if groups.flatten.isEmpty then none
                 else some (pySlice (sortFNodes groups.flatten) (top_k * 2)))))

/-- Fuel-indexed embedding of `trace_from_neuron` inside `trace_circuit_backward`. -/
def traceBwdF (M : Model) (top_k : Int) :
    Nat → Int → Int → Int → Except SErr (Option (List BNode))
  | 0, _, _, _ => .error .fuelOut
  | fuel + 1, layer, neuron, depth =>
    if depth = 0 ∨ layer ≤ 0 then .ok none
    else
      bindE (liftO (neuron_get_connected_reschannels M layer neuron)) (fun connections =>
        bindE (mapE (fun ch =>
            bindE (mapE (fun prev_layer =>
                bindE (liftO (find_neurons_writing_channel M prev_layer ch.channel_id top_k))
                  (fun writers =>
                    mapE (fun writer =>
                        bindE (traceBwdF M top_k fuel prev_layer writer.neuron_id (depth - 1))
                          (fun c =>
                            .ok (BNode.mk prev_layer writer.neuron_id writer.weight
                              ch.channel_id ch.weight c)))
                      writers))
              (downRange layer))
              (fun per_layer => .ok per_layer.flatten))
          (pySlice (sortConnsByAbs connections.in_conns) top_k))
          (fun groups =>
            .ok (if groups.flatten.isEmpty then none
                 else some (pySlice (sortBNodes groups.flatten) (top_k * 2)))))

/-- Sufficient fuel: the recursion strictly increases (resp. decreases) the
layer, so its depth is bounded in terms of the layer count alone. -/
def FUEL (M : Model) : Nat := 2 * M.numLayers + 2

/-- `trace_circuit_forward(start_layer, start_neuron, depth, top_k)`:
the top-level `or []` turns a `None` result into the empty list. -/
def trace_circuit_forward (M : Model) (start_layer start_neuron depth top_k : Int) :
    Except SErr (List FNode) :=
  bindE (traceFwdF M top_k (FUEL M) start_layer start_neuron depth)
    (fun r => .ok (r.getD []))

/-- `trace_circuit_backward(start_layer, start_neuron, depth, top_k)`. -/
def trace_circuit_backward (M : Model) (start_layer start_neuron depth top_k : Int) :
    Except SErr (List BNode) :=
  bindE (traceBwdF M top_k (FUEL M) start_layer start_neuron depth)
    (fun r => .ok (r.getD []))

/-- Modelled from the spec of `traceForward`, step 3 and 4: the candidate
entries of one node expansion, before the re-rank cut.  For each of the
top-`topK` out-connections of the neuron (by absolute weight), for each layer
`next` with `layer < next < numLayers` in increasing order, and for every
reader returned by `readersOfChannel(next, channelId, topK)`, one entry
`{layer: next, neuron, read_weight, via_channel, write_weight, children}`
with the children computed by recursion at `depth - 1`. -/
def fwdCandSpec (M : Model) (top_k : Int) (fuel : Nat) (layer neuron depth : Int) :
    Except SErr (List FNode) :=
  bindE (liftO (neuron_get_connected_reschannels M layer neuron)) (fun connections =>
    joinE ((pySlice (sortConnsByAbs connections.out_conns) top_k).map (fun ch =>
      joinE ((intRange (layer + 1) (M.numLayers : Int)).map (fun next_layer =>
        bindE (liftO (find_neurons_reading_channel M next_layer ch.channel_id top_k))
          (fun readers =>
            mapE (fun reader =>
                bindE (traceFwdF M top_k fuel next_layer reader.neuron_id (depth - 1))
                  (fun c =>
                    .ok (FNode.mk next_layer reader.neuron_id reader.weight
                      ch.channel_id ch.weight c)))
              readers))))))

/-- Modelled from the spec of `traceBackward`: the mirror candidate list over
in-connections, layers `prev < layer` in decreasing order, and
`writersOfChannel`, with field name `parents`. -/
def bwdCandSpec (M : Model) (top_k : Int) (fuel : Nat) (layer neuron depth : Int) :
    Except SErr (List BNode) :=
  bindE (liftO (neuron_get_connected_reschannels M layer neuron)) (fun connections =>
    joinE ((pySlice (sortConnsByAbs connections.in_conns) top_k).map (fun ch =>
      joinE ((downRange layer).map (fun prev_layer =>
        bindE (liftO (find_neurons_writing_channel M prev_layer ch.channel_id top_k))
          (fun writers =>
            mapE (fun writer =>
                bindE (traceBwdF M top_k fuel prev_layer writer.neuron_id (depth - 1))
                  (fun c =>
                    .ok (BNode.mk prev_layer writer.neuron_id writer.weight
                      ch.channel_id ch.weight c)))
              writers))))))

/-- Detail string of the layer-range HTTP 400 error. -/
def layerMsg (num_layers : Int) : String :=
  "Layer must be between 0 and " ++ toString (num_layers - 1)

/-- Detail string of the neuron-range HTTP 400 error. -/
def neuronMsg (mlp_size : Int) : String :=
  "Neuron index must be between 0 and " ++ toString (mlp_size - 1)

/-- Detail string of the channel-range HTTP 400 error. -/
def channelMsg (d_model : Int) : String :=
  "Channel must be between 0 and " ++ toString (d_model - 1)

/-- Response of `GET /neuron/{layer}/{neuron}`. -/
structure NeuronResp where
  layer : Int
  neuron : Int
  trace_forward : List FNode
  trace_backward : List BNode

/-- `get_neuron_connections(layer, neuron, trace_depth, trace_k)`. -/
def get_neuron_connections (M : Model) (layer neuron trace_depth trace_k : Int) :
    Except SErr NeuronResp :=
  if layer < 0 ∨ (M.numLayers : Int) ≤ layer then
    .error (.http 400 (layerMsg (M.numLayers : Int)))
  else
    bindE (liftO (pyGet M.layers layer)) (fun L =>
      if neuron < 0 ∨ (L.mlpSize : Int) ≤ neuron then
        .error (.http 400 (neuronMsg (L.mlpSize : Int)))
      else
        bindE (trace_circuit_forward M layer neuron trace_depth trace_k) (fun tf =>
          bindE (trace_circuit_backward M layer neuron trace_depth trace_k) (fun tb =>
            .ok ⟨layer, neuron, tf, tb⟩)))

/-- Response of `GET /channel/{channel_id}`; the Python dicts keyed by layer
index, built in increasing layer order, are association lists. -/
structure ChannelResp where
  channel_id : Int
  readers_by_layer : List (Nat × List NEntry)
  writers_by_layer : List (Nat × List NEntry)

/-- One iteration of the layer loop of `get_channel_connections`: the
readers and writers of the channel at layer `i`. -/
def chanTriple (M : Model) (channel_id top_k : Int) (i : Nat) :
    Except SErr (Nat × List NEntry × List NEntry) :=
  bindE (liftO (find_neurons_reading_channel M (i : Int) channel_id top_k))
    (fun readers =>
      bindE (liftO (find_neurons_writing_channel M (i : Int) channel_id top_k))
        (fun writers => .ok (i, readers, writers)))

/-- `get_channel_connections(channel_id, top_k)`. -/
def get_channel_connections (M : Model) (channel_id top_k : Int) :
    Except SErr ChannelResp :=
  bindE (liftO (pyGet M.layers 0)) (fun L0 =>
    if channel_id < 0 ∨ (L0.dModel : Int) ≤ channel_id then
      .error (.http 400 (channelMsg (L0.dModel : Int)))
    else
      bindE (mapE (chanTriple M channel_id top_k) (List.range M.numLayers))
        (fun triples =>
        .ok ⟨channel_id,
          triples.filterMap (fun t => if t.2.1.isEmpty then none else some (t.1, t.2.1)),
          triples.filterMap (fun t => if t.2.2.isEmpty then none else some (t.1, t.2.2))⟩))

/-- Concrete two-layer test model (`mlpSize = 2`, `dModel = 4`):
layer 0: `c_fc = [[1,0,0,0],[0,2,0,0]]`, `c_proj = [[0,0],[3,0],[0,4],[0,0]]`;
layer 1: `c_fc = [[0,5,0,0],[0,-5,0,0]]`, `c_proj` all zero.
Channel 1 is written by layer-0 neuron 0 (weight 3) and read by both layer-1
neurons with equal absolute weights 5 and -5; channel 3 is everywhere zero. -/
def MexL0 : MLayer :=
  { mlpSize := 2, dModel := 4,
    c_fc := [[1, 0, 0, 0], [0, 2, 0, 0]],
    c_proj := [[0, 0], [3, 0], [0, 4], [0, 0]] }

def MexL1 : MLayer :=
  { mlpSize := 2, dModel := 4,
    c_fc := [[0, 5, 0, 0], [0, -5, 0, 0]],
    c_proj := [[0, 0], [0, 0], [0, 0], [0, 0]] }

def Mex : Model := { layers := [MexL0, MexL1] }

/-- The single forward-trace node produced on `Mex` from `(layer 0, neuron 0)`
with `depth = 1`, `top_k = 1`. -/
def wNodeF : FNode := FNode.mk 1 0 5 1 3 none

/-- The single backward-trace node produced on `Mex` from `(layer 1, neuron 0)`
with `depth = 1`, `top_k = 1`. -/
def wNodeB : BNode := BNode.mk 0 0 3 1 5 none

theorem bindE_error {β : Type} {e : SErr} (k : α → Except SErr β) :
    bindE (.error e) k = .error e := rfl

theorem bindE_ok {β : Type} (v : α) (k : α → Except SErr β) :
    bindE (.ok v) k = k v := rfl

theorem bindE_eq_ok_iff {β : Type} {x : Except SErr α} {k : α → Except SErr β}
    {b : β} : bindE x k = .ok b ↔ ∃ v, x = .ok v ∧ k v = .ok b := by
  cases x <;> simp [bindE]

theorem bindE_eq_error_iff {β : Type} {x : Except SErr α} {k : α → Except SErr β}
    {e : SErr} :
    bindE x k = .error e ↔ x = .error e ∨ ∃ v, x = .ok v ∧ k v = .error e := by
  cases x <;> simp [bindE]

theorem bindE_ne_error {β : Type} {x : Except SErr α} {k : α → Except SErr β}
    {e : SErr} (h1 : x ≠ .error e) (h2 : ∀ v, k v ≠ .error e) :
    bindE x k ≠ .error e := by
  cases hx : x with
  | error e' => simpa [bindE] using fun h => h1 (by rw [hx, h])
  | ok v => simpa [bindE] using h2 v

theorem liftO_none {α : Type} : (liftO (none : Option α)) = .error .exc := rfl

theorem liftO_some {α : Type} (a : α) : liftO (some a) = .ok a := rfl

theorem liftO_eq_ok_iff {α : Type} {o : Option α} {v : α} :
    liftO o = .ok v ↔ o = some v := by
  cases o <;> simp [liftO]

theorem liftO_eq_error_iff {α : Type} {o : Option α} {e : SErr} :
    liftO o = .error e ↔ o = none ∧ e = .exc := by
  cases o <;> simp [liftO, eq_comm]

theorem mapE_nil {α β : Type} (f : α → Except SErr β) : mapE f [] = .ok [] := rfl

theorem mapE_eq_error_ex {α β : Type} {f : α → Except SErr β} {l : List α}
    {e : SErr} (h : mapE f l = .error e) : ∃ x ∈ l, f x = .error e := by
  induction l with
  | nil => simp [mapE] at h
  | cons a as ih =>
    rw [mapE] at h
    cases hfa : f a with
    | error e' =>
      rw [hfa] at h
      exact ⟨a, by simp, by simpa using hfa.trans (by simpa using h)⟩
    | ok b =>
      rw [hfa] at h
      cases hrest : mapE f as with
      | error e' =>
        rw [hrest] at h
        obtain ⟨x, hx, hfx⟩ := ih (by simpa using hrest.trans (by simpa using h))
        exact ⟨x, by simp [hx], hfx⟩
      | ok bs => rw [hrest] at h; simp at h

theorem mapE_ne_error {α β : Type} {f : α → Except SErr β} {l : List α}
    {e : SErr} (h : ∀ x ∈ l, f x ≠ .error e) : mapE f l ≠ .error e :=
  fun hc => by obtain ⟨x, hx, hfx⟩ := mapE_eq_error_ex hc; exact h x hx hfx

theorem mapE_isOk_of {α β : Type} {f : α → Except SErr β} {l : List α}
    (h : ∀ x ∈ l, ∃ b, f x = .ok b) : ∃ res, mapE f l = .ok res := by
  induction l with
  | nil => exact ⟨[], rfl⟩
  | cons a as ih =>
    obtain ⟨b, hb⟩ := h a (by simp)
    obtain ⟨res, hres⟩ := ih (fun x hx => h x (by simp [hx]))
    exact ⟨b :: res, by rw [mapE, hb, hres]⟩

theorem mapE_ok_mem_iff {α β : Type} {f : α → Except SErr β} {l : List α}
    {res : List β} (h : mapE f l = .ok res) :
    ∀ b, b ∈ res ↔ ∃ a ∈ l, f a = .ok b := by
  induction l generalizing res with
  | nil => intro b; simp [mapE] at h; simp [h]
  | cons a as ih =>
    intro b
    rw [mapE] at h
    cases hfa : f a with
    | error e => rw [hfa] at h; simp at h
    | ok v =>
      rw [hfa] at h
      cases hrest : mapE f as with
      | error e => rw [hrest] at h; simp at h
      | ok bs =>
        rw [hrest] at h
        simp only [Except.ok.injEq] at h
        subst h
        constructor
        · intro hb
          rcases List.mem_cons.mp hb with hb | hb
          · exact ⟨a, by simp, by rw [hfa, hb]⟩
          · obtain ⟨x, hx, hfx⟩ := (ih hrest b).mp hb
            exact ⟨x, by simp [hx], hfx⟩
        · rintro ⟨x, hx, hfx⟩
          rcases List.mem_cons.mp hx with hx | hx
          · subst hx
            rw [hfa] at hfx
            simp only [Except.ok.injEq] at hfx
            simp [hfx]
          · exact List.mem_cons.mpr (Or.inr ((ih hrest b).mpr ⟨x, hx, hfx⟩))

theorem mapE_congr {α β : Type} {f g : α → Except SErr β} {l : List α}
    (h : ∀ x ∈ l, f x = g x) : mapE f l = mapE g l := by
  induction l with
  | nil => rfl
  | cons a as ih =>
    rw [mapE, mapE, h a (by simp), ih (fun x hx => h x (by simp [hx]))]

theorem joinE_cons_error {β : Type} (e : SErr) (xs : List (Except SErr (List β))) :
    joinE (.error e :: xs) = .error e := rfl

theorem joinE_cons_ok {β : Type} (l : List β) (xs : List (Except SErr (List β))) :
    joinE (.ok l :: xs) = bindE (joinE xs) (fun r => .ok (l ++ r)) := by
  cases h : joinE xs <;> simp [joinE, h, bindE]

theorem mapE_cons_error {α β : Type} {f : α → Except SErr β} {a : α} {as : List α}
    {e : SErr} (h : f a = .error e) : mapE f (a :: as) = .error e := by
  rw [mapE, h]

theorem mapE_cons_ok {α β : Type} {f : α → Except SErr β} {a : α} {as : List α}
    {b : β} (h : f a = .ok b) :
    mapE f (a :: as) = bindE (mapE f as) (fun bs => .ok (b :: bs)) := by
  rw [mapE, h]; cases hrest : mapE f as <;> simp [bindE]

theorem joinE_map_eq {α β : Type} (f : α → Except SErr (List β)) (l : List α) :
    joinE (l.map f) = bindE (mapE f l) (fun gs => .ok gs.flatten) := by
  induction l with
  | nil => rfl
  | cons a as ih =>
    rw [List.map_cons]
    cases hfa : f a with
    | error e => rw [joinE_cons_error e, mapE_cons_error hfa, bindE_error]
    | ok bs =>
      rw [joinE_cons_ok, ih, mapE_cons_ok hfa]
      cases hrest : mapE f as with
      | error e => simp [bindE]
      | ok gss => simp [bindE]

theorem pyIdx_eq_some_iff {n : Nat} {i : Int} {k : Nat} :
    pyIdx n i = some k ↔
      ((0 ≤ i ∧ i < (n : Int) ∧ k = i.toNat) ∨
        (i < 0 ∧ 0 ≤ (n : Int) + i ∧ k = ((n : Int) + i).toNat)) := by
  unfold pyIdx
  split_ifs with h1 h2 h3 <;> simp <;> omega

theorem pyIdx_isSome_iff {n : Nat} {i : Int} :
    (pyIdx n i).isSome ↔ -(n : Int) ≤ i ∧ i < (n : Int) := by
  unfold pyIdx
  split_ifs with h1 h2 h3 <;> simp <;> omega

theorem pyIdx_eq_none_iff {n : Nat} {i : Int} :
    pyIdx n i = none ↔ i < -(n : Int) ∨ (n : Int) ≤ i := by
  rw [← Option.not_isSome_iff_eq_none, pyIdx_isSome_iff]; omega

theorem pyIdx_some_lt {n : Nat} {i : Int} {k : Nat} (h : pyIdx n i = some k) :
    k < n := by
  rcases pyIdx_eq_some_iff.mp h with ⟨h1, h2, h3⟩ | ⟨h1, h2, h3⟩ <;> omega

theorem pyIdx_of_range {n : Nat} {i : Int} (h0 : 0 ≤ i) (h1 : i < (n : Int)) :
    pyIdx n i = some i.toNat := by
  rw [pyIdx_eq_some_iff]; omega

theorem pyGet_eq_some_ex {α : Type} {l : List α} {i : Int} {a : α}
    (h : pyGet l i = some a) :
    ∃ k, pyIdx l.length i = some k ∧ l.get? k = some a := by
  unfold pyGet at h
  cases hk : pyIdx l.length i with
  | none => rw [hk] at h; simp at h
  | some k => rw [hk] at h; exact ⟨k, rfl, h⟩

theorem pyGet_isSome_iff {α : Type} {l : List α} {i : Int} :
    (pyGet l i).isSome ↔ -(l.length : Int) ≤ i ∧ i < (l.length : Int) := by
  unfold pyGet
  cases hk : pyIdx l.length i with
  | none =>
    have hb := pyIdx_eq_none_iff.mp hk
    simp only [Option.none_bind, Option.isSome_none, Bool.false_eq_true, false_iff]
    omega
  | some k =>
    have hlt := pyIdx_some_lt hk
    have hs : (pyIdx l.length i).isSome := by rw [hk]; rfl
    rw [pyIdx_isSome_iff] at hs
    simp only [Option.some_bind]
    have hget : (l.get? k).isSome := by rw [List.get?_eq_get hlt]; rfl
    rw [List.get?_eq_getElem?] at hget
    simp [hget, hs]

theorem pyGet_eq_none_iff {α : Type} {l : List α} {i : Int} :
    pyGet l i = none ↔ i < -(l.length : Int) ∨ (l.length : Int) ≤ i := by
  rw [← Option.not_isSome_iff_eq_none, pyGet_isSome_iff]; omega

theorem pyGet_some_bounds {α : Type} {l : List α} {i : Int} {a : α}
    (h : pyGet l i = some a) : -(l.length : Int) ≤ i ∧ i < (l.length : Int) := by
  rw [← pyGet_isSome_iff]; rw [h]; rfl

theorem pyGet_some_mem {α : Type} {l : List α} {i : Int} {a : α}
    (h : pyGet l i = some a) : a ∈ l := by
  obtain ⟨k, _, hget⟩ := pyGet_eq_some_ex h
  exact List.get?_mem hget

theorem pyGet_of_range {α : Type} {l : List α} {i : Int}
    (h0 : 0 ≤ i) (h1 : i < (l.length : Int)) :
    pyGet l i = l.get? i.toNat := by
  unfold pyGet
  rw [pyIdx_of_range h0 h1, Option.some_bind]

theorem pySlice_of_nonneg {α : Type} {l : List α} {k : Int} (h : 0 ≤ k) :
    pySlice l k = l.take k.toNat := by
  unfold pySlice; rw [if_pos h]

theorem pySlice_sublist {α : Type} (l : List α) (k : Int) :
    (pySlice l k).Sublist l := by
  unfold pySlice; split_ifs <;> exact List.take_sublist _ _

theorem pySlice_length_le {α : Type} {l : List α} {k : Int} (h : 0 ≤ k) :
    ((pySlice l k).length : Int) ≤ k := by
  rw [pySlice_of_nonneg h]
  have := List.length_take_le k.toNat l
  omega

theorem pySlice_ne_nil {α : Type} {l : List α} {k : Int}
    (hl : l ≠ []) (hk : 1 ≤ k) : pySlice l k ≠ [] := by
  rw [pySlice_of_nonneg (by omega)]
  have : l.length ≠ 0 := fun hc => hl (List.length_eq_zero.mp hc)
  have : (l.take k.toNat).length = min k.toNat l.length := List.length_take _ _
  intro hc
  rw [hc] at this
  simp at this
  omega

theorem mem_intRange {x a b : Int} : x ∈ intRange a b ↔ a ≤ x ∧ x < b := by
  unfold intRange
  constructor
  · intro hx
    obtain ⟨k, hk, hke⟩ := List.mem_map.mp hx
    rw [List.mem_range] at hk
    omega
  · intro h
    exact List.mem_map.mpr ⟨(x - a).toNat, List.mem_range.mpr (by omega), by omega⟩

theorem mem_downRange {x a : Int} : x ∈ downRange a ↔ 0 ≤ x ∧ x < a := by
  unfold downRange
  constructor
  · intro hx
    obtain ⟨k, hk, hke⟩ := List.mem_map.mp hx
    rw [List.mem_reverse, List.mem_range] at hk
    omega
  · intro h
    refine List.mem_map.mpr ⟨x.toNat, ?_, by omega⟩
    rw [List.mem_reverse, List.mem_range]
    omega

theorem mapO_isSome_of {α β : Type} {f : α → Option β} {l : List α}
    (h : ∀ a ∈ l, (f a).isSome) : (mapO f l).isSome := by
  induction l with
  | nil => rfl
  | cons a as ih =>
    rw [mapO]
    cases hfa : f a with
    | none => have := h a (by simp); rw [hfa] at this; simp at this
    | some b =>
      cases hrest : mapO f as with
      | none =>
        have := ih (fun x hx => h x (by simp [hx]))
        rw [hrest] at this; simp at this
      | some bs => rfl

theorem mapO_some_mem {α β : Type} {f : α → Option β} {l : List α} {res : List β}
    (h : mapO f l = some res) : ∀ b ∈ res, ∃ a ∈ l, f a = some b := by
  induction l generalizing res with
  | nil => simp [mapO] at h; simp [h]
  | cons a as ih =>
    rw [mapO] at h
    cases hfa : f a with
    | none => rw [hfa] at h; simp at h
    | some b =>
      rw [hfa] at h
      cases hrest : mapO f as with
      | none => rw [hrest] at h; simp at h
      | some bs =>
        rw [hrest] at h
        simp only [Option.some.injEq] at h
        subst h
        intro x hx
        rcases List.mem_cons.mp hx with hx | hx
        · exact ⟨a, by simp, by rw [hfa, hx]⟩
        · obtain ⟨y, hy, hfy⟩ := ih hrest x hx
          exact ⟨y, by simp [hy], hfy⟩

theorem nonzeroEntriesFrom_mem {ws : List W} :
    ∀ {k : Nat} {e : NEntry}, e ∈ nonzeroEntriesFrom k ws →
      e.weight ≠ 0 ∧ (k : Int) ≤ e.neuron_id := by
  induction ws with
  | nil => intro k e h; simp [nonzeroEntriesFrom] at h
  | cons w ws ih =>
    intro k e h
    rw [nonzeroEntriesFrom] at h
    by_cases hw : w ≠ 0
    · rw [if_pos hw] at h
      rcases List.mem_cons.mp h with h | h
      · subst h; exact ⟨hw, le_refl _⟩
      · obtain ⟨h1, h2⟩ := ih h
        exact ⟨h1, by omega⟩
    · rw [if_neg hw] at h
      obtain ⟨h1, h2⟩ := ih h
      exact ⟨h1, by omega⟩

theorem nonzeroEntriesFrom_pairwise {ws : List W} :
    ∀ {k : Nat}, (nonzeroEntriesFrom k ws).Pairwise
      (fun a b => a.neuron_id < b.neuron_id) := by
  induction ws with
  | nil => intro k; simp [nonzeroEntriesFrom]
  | cons w ws ih =>
    intro k
    rw [nonzeroEntriesFrom]
    by_cases hw : w ≠ 0
    · rw [if_pos hw]
      refine List.pairwise_cons.mpr ⟨?_, ih⟩
      intro e he
      have := (nonzeroEntriesFrom_mem he).2
      simp only []
      omega
    · rw [if_neg hw]; exact ih

theorem nonzeroEntriesFrom_eq_nil {ws : List W} (h : ∀ w ∈ ws, w = 0) :
    ∀ {k : Nat}, nonzeroEntriesFrom k ws = [] := by
  induction ws with
  | nil => intro k; rfl
  | cons w ws ih =>
    intro k
    rw [nonzeroEntriesFrom]
    have hw : ¬w ≠ 0 := by simp [h w (by simp)]
    rw [if_neg hw]
    exact ih (fun x hx => h x (by simp [hx]))

/-- The stable-sort ordering actually achieved on neuron entries: strictly
bigger absolute weight first, ties in original (neuron-id) order. -/
def neLex (a b : NEntry) : Prop :=
  |b.weight| < |a.weight| ∨ (|a.weight| = |b.weight| ∧ a.neuron_id < b.neuron_id)

instance : IsTotal NEntry (fun a b => |b.weight| ≤ |a.weight|) :=
  ⟨fun a b => le_total _ _⟩

instance : IsTrans NEntry (fun a b => |b.weight| ≤ |a.weight|) :=
  ⟨fun _ _ _ hab hbc => le_trans hbc hab⟩

instance : IsTotal Conn (fun a b => |b.weight| ≤ |a.weight|) :=
  ⟨fun a b => le_total _ _⟩

instance : IsTrans Conn (fun a b => |b.weight| ≤ |a.weight|) :=
  ⟨fun _ _ _ hab hbc => le_trans hbc hab⟩

instance : IsTotal FNode (fun a b => fprod b ≤ fprod a) :=
  ⟨fun a b => le_total _ _⟩

instance : IsTrans FNode (fun a b => fprod b ≤ fprod a) :=
  ⟨fun _ _ _ hab hbc => le_trans hbc hab⟩

instance : IsTotal BNode (fun a b => bprod b ≤ bprod a) :=
  ⟨fun a b => le_total _ _⟩

instance : IsTrans BNode (fun a b => bprod b ≤ bprod a) :=
  ⟨fun _ _ _ hab hbc => le_trans hbc hab⟩

theorem orderedInsert_neLex (x : NEntry) :
    ∀ (s : List NEntry), s.Pairwise neLex →
      (∀ y ∈ s, x.neuron_id < y.neuron_id) →
      (List.orderedInsert (fun a b => |b.weight| ≤ |a.weight|) x s).Pairwise neLex := by
  intro s
  induction s with
  | nil => intro _ _; simp [neLex]
  | cons y ys ih =>
    intro hs hx
    rw [List.orderedInsert]
    by_cases hr : |y.weight| ≤ |x.weight|
    · rw [if_pos hr]
      refine List.pairwise_cons.mpr ⟨?_, hs⟩
      intro z hz
      have hxz : x.neuron_id < z.neuron_id := hx z hz
      rcases List.mem_cons.mp hz with hzy | hzys
      · subst hzy
        rcases lt_or_eq_of_le hr with hlt | heq
        · exact Or.inl hlt
        · exact Or.inr ⟨heq.symm, hxz⟩
      · have hyz := List.rel_of_pairwise_cons hs hzys
        have hzy : |z.weight| ≤ |y.weight| := by
          rcases hyz with h | ⟨h, _⟩
          · exact le_of_lt h
          · exact le_of_eq h.symm
        rcases lt_or_eq_of_le (le_trans hzy hr) with hlt | heq
        · exact Or.inl hlt
        · exact Or.inr ⟨heq.symm, hxz⟩
    · rw [if_neg hr]
      refine List.pairwise_cons.mpr ⟨?_, ?_⟩
      · intro z hz
        rcases (List.mem_orderedInsert _).mp hz with hzx | hzys
        · subst hzx
          exact Or.inl (lt_of_not_le hr)
        · exact List.rel_of_pairwise_cons hs hzys
      · exact ih (List.pairwise_cons.mp hs).2
          (fun z hz => hx z (List.mem_cons.mpr (Or.inr hz)))

theorem sortEntriesByAbs_neLex :
    ∀ (l : List NEntry), l.Pairwise (fun a b => a.neuron_id < b.neuron_id) →
      (sortEntriesByAbs l).Pairwise neLex := by
  intro l
  induction l with
  | nil => intro _; simp [sortEntriesByAbs]
  | cons a l ih =>
    intro hl
    show (List.orderedInsert _ a
      (List.insertionSort (fun a b => |b.weight| ≤ |a.weight|) l)).Pairwise neLex
    refine orderedInsert_neLex a _ (ih (List.pairwise_cons.mp hl).2) ?_
    intro y hy
    exact (List.pairwise_cons.mp hl).1 y ((List.mem_insertionSort _).mp hy)

theorem bindE_assoc {α β γ : Type} (x : Except SErr α) (k : α → Except SErr β)
    (k' : β → Except SErr γ) :
    bindE (bindE x k) k' = bindE x (fun v => bindE (k v) k') := by
  cases x <;> rfl

theorem liftO_ne_fuelOut {α : Type} (o : Option α) : liftO o ≠ .error .fuelOut := by
  cases o <;> simp [liftO]

theorem bindE_ne_error' {α β : Type} {x : Except SErr α} {k : α → Except SErr β}
    {e : SErr} (h1 : x ≠ .error e) (h2 : ∀ v, x = .ok v → k v ≠ .error e) :
    bindE x k ≠ .error e := by
  cases hx : x with
  | error e' =>
    rw [bindE_error]
    intro hc
    have he : e' = e := by injection hc
    exact h1 (by rw [hx, he])
  | ok v => rw [bindE_ok]; exact h2 v hx

theorem joinE_ne_error {β : Type} {xs : List (Except SErr (List β))} {e : SErr}
    (h : ∀ x ∈ xs, x ≠ .error e) : joinE xs ≠ .error e := by
  induction xs with
  | nil => simp [joinE]
  | cons x xs ih =>
    cases hx : x with
    | error e' =>
      rw [joinE_cons_error]
      intro hc
      exact h x (by simp) (by rw [hx, hc])
    | ok l =>
      rw [joinE_cons_ok]
      exact bindE_ne_error' (ih (fun y hy => h y (by simp [hy]))) (by simp)

theorem tf_succ_eq (M : Model) (top_k : Int) (fuel : Nat) (layer neuron depth : Int) :
    traceFwdF M top_k (fuel + 1) layer neuron depth =
      if depth = 0 ∨ (M.numLayers : Int) - 1 ≤ layer then .ok none
      else
        bindE (fwdCandSpec M top_k fuel layer neuron depth) (fun cand =>
          .ok (if cand.isEmpty then none
               else some (pySlice (sortFNodes cand) (top_k * 2)))) := by
  rw [traceFwdF]
  by_cases hterm : depth = 0 ∨ (M.numLayers : Int) - 1 ≤ layer
  · rw [if_pos hterm, if_pos hterm]
  · rw [if_neg hterm, if_neg hterm]
    unfold fwdCandSpec
    cases hc : neuron_get_connected_reschannels M layer neuron with
    | none => rw [liftO_none, bindE_error, bindE_error, bindE_error]
    | some c =>
      rw [liftO_some, bindE_ok, bindE_ok]
      rw [List.map_congr_left (fun ch _ => joinE_map_eq _ (intRange (layer + 1) (M.numLayers : Int)))]
      rw [joinE_map_eq, bindE_assoc]
      congr 1

theorem tb_succ_eq (M : Model) (top_k : Int) (fuel : Nat) (layer neuron depth : Int) :
    traceBwdF M top_k (fuel + 1) layer neuron depth =
      if depth = 0 ∨ layer ≤ 0 then .ok none
      else
        bindE (bwdCandSpec M top_k fuel layer neuron depth) (fun cand =>
          .ok (if cand.isEmpty then none
               else some (pySlice (sortBNodes cand) (top_k * 2)))) := by
  rw [traceBwdF]
  by_cases hterm : depth = 0 ∨ layer ≤ 0
  · rw [if_pos hterm, if_pos hterm]
  · rw [if_neg hterm, if_neg hterm]
    unfold bwdCandSpec
    cases hc : neuron_get_connected_reschannels M layer neuron with
    | none => rw [liftO_none, bindE_error, bindE_error, bindE_error]
    | some c =>
      rw [liftO_some, bindE_ok, bindE_ok]
      rw [List.map_congr_left (fun ch _ => joinE_map_eq _ (downRange layer))]
      rw [joinE_map_eq, bindE_assoc]
      congr 1

theorem FUEL_eq_succ (M : Model) : FUEL M = (2 * M.numLayers + 1) + 1 := rfl

theorem tf_terminal {M : Model} {top_k : Int} {fuel : Nat} {layer neuron depth : Int}
    (h : depth = 0 ∨ (M.numLayers : Int) - 1 ≤ layer) :
    traceFwdF M top_k (fuel + 1) layer neuron depth = .ok none := by
  rw [tf_succ_eq, if_pos h]

theorem tb_terminal {M : Model} {top_k : Int} {fuel : Nat} {layer neuron depth : Int}
    (h : depth = 0 ∨ layer ≤ 0) :
    traceBwdF M top_k (fuel + 1) layer neuron depth = .ok none := by
  rw [tb_succ_eq, if_pos h]

theorem neuron_get_some_bounds {M : Model} {layer n : Int} {c : Conns}
    (h : neuron_get_connected_reschannels M layer n = some c) :
    -(M.numLayers : Int) ≤ layer ∧ layer < (M.numLayers : Int) := by
  unfold neuron_get_connected_reschannels at h
  obtain ⟨L, hL, _⟩ := Option.bind_eq_some.mp h
  have := pyGet_some_bounds hL
  simpa [Model.numLayers] using this

theorem tf_ne_fuelOut (M : Model) (top_k : Int) :
    ∀ (fuel : Nat) (layer neuron depth : Int),
      (-(M.numLayers : Int) ≤ layer → ((M.numLayers : Int) - layer).toNat < fuel) →
      (layer < -(M.numLayers : Int) → 0 < fuel) →
      traceFwdF M top_k fuel layer neuron depth ≠ .error .fuelOut := by
  intro fuel
  induction fuel with
  | zero =>
    intro layer neuron depth h1 h2
    rcases le_or_lt (-(M.numLayers : Int)) layer with hl | hl
    · exact absurd (h1 hl) (by omega)
    · exact absurd (h2 hl) (by omega)
  | succ fuel ih =>
    intro layer neuron depth h1 h2
    rw [tf_succ_eq]
    by_cases hterm : depth = 0 ∨ (M.numLayers : Int) - 1 ≤ layer
    · rw [if_pos hterm]; simp
    · rw [if_neg hterm]
      refine bindE_ne_error' ?_ (by intro v _; simp)
      unfold fwdCandSpec
      refine bindE_ne_error' (liftO_ne_fuelOut _) ?_
      intro conns hconns
      rw [liftO_eq_ok_iff] at hconns
      have hbounds := neuron_get_some_bounds hconns
      refine joinE_ne_error ?_
      intro x hx
      obtain ⟨ch, hch, rfl⟩ := List.mem_map.mp hx
      refine joinE_ne_error ?_
      intro y hy
      obtain ⟨next, hnext, rfl⟩ := List.mem_map.mp hy
      rw [mem_intRange] at hnext
      refine bindE_ne_error' (liftO_ne_fuelOut _) ?_
      intro readers _
      refine mapE_ne_error ?_
      intro reader _
      refine bindE_ne_error' ?_ (by intro v _; simp)
      refine ih next reader.neuron_id (depth - 1) ?_ ?_
      · intro _
        have h1' := h1 hbounds.1
        omega
      · intro hcon
        exact absurd hcon (by omega)

theorem tb_ne_fuelOut (M : Model) (top_k : Int) :
    ∀ (fuel : Nat) (layer neuron depth : Int),
      0 < fuel →
      (0 < layer → layer < (M.numLayers : Int) → layer.toNat < fuel) →
      traceBwdF M top_k fuel layer neuron depth ≠ .error .fuelOut := by
  intro fuel
  induction fuel with
  | zero =>
    intro layer neuron depth h1 _
    exact absurd h1 (by omega)
  | succ fuel ih =>
    intro layer neuron depth h1 h2
    rw [tb_succ_eq]
    by_cases hterm : depth = 0 ∨ layer ≤ 0
    · rw [if_pos hterm]; simp
    · rw [if_neg hterm]
      have hpos : 0 < layer := by omega
      refine bindE_ne_error' ?_ (by intro v _; simp)
      unfold bwdCandSpec
      refine bindE_ne_error' (liftO_ne_fuelOut _) ?_
      intro conns hconns
      rw [liftO_eq_ok_iff] at hconns
      have hbounds := neuron_get_some_bounds hconns
      have hfl : layer.toNat < fuel + 1 := h2 hpos hbounds.2
      refine joinE_ne_error ?_
      intro x hx
      obtain ⟨ch, hch, rfl⟩ := List.mem_map.mp hx
      refine joinE_ne_error ?_
      intro y hy
      obtain ⟨prev, hprev, rfl⟩ := List.mem_map.mp hy
      rw [mem_downRange] at hprev
      refine bindE_ne_error' (liftO_ne_fuelOut _) ?_
      intro writers _
      refine mapE_ne_error ?_
      intro writer _
      refine bindE_ne_error' ?_ (by intro v _; simp)
      refine ih prev writer.neuron_id (depth - 1) (by omega) ?_
      intro hp1 hp2
      omega

theorem tf_ok_cases {M : Model} {top_k : Int} {fuel : Nat} {layer neuron depth : Int}
    {r : Option (List FNode)}
    (h : traceFwdF M top_k (fuel + 1) layer neuron depth = .ok r) :
    (r = none ∧ (depth = 0 ∨ (M.numLayers : Int) - 1 ≤ layer)) ∨
      (∃ cand, fwdCandSpec M top_k fuel layer neuron depth = .ok cand ∧
        ((cand = [] ∧ r = none) ∨
          (cand ≠ [] ∧ r = some (pySlice (sortFNodes cand) (top_k * 2))))) := by
  rw [tf_succ_eq] at h
  by_cases hterm : depth = 0 ∨ (M.numLayers : Int) - 1 ≤ layer
  · rw [if_pos hterm] at h
    simp only [Except.ok.injEq] at h
    exact Or.inl ⟨h.symm, hterm⟩
  · rw [if_neg hterm] at h
    obtain ⟨cand, hcand, hk⟩ := bindE_eq_ok_iff.mp h
    simp only [Except.ok.injEq] at hk
    refine Or.inr ⟨cand, hcand, ?_⟩
    by_cases hc : cand.isEmpty
    · rw [if_pos hc] at hk
      exact Or.inl ⟨List.isEmpty_iff.mp hc, hk.symm⟩
    · rw [if_neg hc] at hk
      exact Or.inr ⟨fun hnil => hc (by simp [hnil]), hk.symm⟩

theorem tb_ok_cases {M : Model} {top_k : Int} {fuel : Nat} {layer neuron depth : Int}
    {r : Option (List BNode)}
    (h : traceBwdF M top_k (fuel + 1) layer neuron depth = .ok r) :
    (r = none ∧ (depth = 0 ∨ layer ≤ 0)) ∨
      (∃ cand, bwdCandSpec M top_k fuel layer neuron depth = .ok cand ∧
        ((cand = [] ∧ r = none) ∨
          (cand ≠ [] ∧ r = some (pySlice (sortBNodes cand) (top_k * 2))))) := by
  rw [tb_succ_eq] at h
  by_cases hterm : depth = 0 ∨ layer ≤ 0
  · rw [if_pos hterm] at h
    simp only [Except.ok.injEq] at h
    exact Or.inl ⟨h.symm, hterm⟩
  · rw [if_neg hterm] at h
    obtain ⟨cand, hcand, hk⟩ := bindE_eq_ok_iff.mp h
    simp only [Except.ok.injEq] at hk
    refine Or.inr ⟨cand, hcand, ?_⟩
    by_cases hc : cand.isEmpty
    · rw [if_pos hc] at hk
      exact Or.inl ⟨List.isEmpty_iff.mp hc, hk.symm⟩
    · rw [if_neg hc] at hk
      exact Or.inr ⟨fun hnil => hc (by simp [hnil]), hk.symm⟩

theorem liftO_ne_http {α : Type} (o : Option α) (s : Int) (m : String) :
    liftO o ≠ .error (.http s m) := by
  cases o <;> simp [liftO]

theorem tf_ne_http (M : Model) (top_k : Int) :
    ∀ (fuel : Nat) (layer neuron depth : Int) (s : Int) (m : String),
      traceFwdF M top_k fuel layer neuron depth ≠ .error (.http s m) := by
  intro fuel
  induction fuel with
  | zero => intro layer neuron depth s m; rw [traceFwdF]; simp
  | succ fuel ih =>
    intro layer neuron depth s m
    rw [tf_succ_eq]
    by_cases hterm : depth = 0 ∨ (M.numLayers : Int) - 1 ≤ layer
    · rw [if_pos hterm]; simp
    · rw [if_neg hterm]
      refine bindE_ne_error' ?_ (by intro v _; simp)
      unfold fwdCandSpec
      refine bindE_ne_error' (liftO_ne_http _ _ _) ?_
      intro conns _
      refine joinE_ne_error ?_
      intro x hx
      obtain ⟨ch, hch, rfl⟩ := List.mem_map.mp hx
      refine joinE_ne_error ?_
      intro y hy
      obtain ⟨next, hnext, rfl⟩ := List.mem_map.mp hy
      refine bindE_ne_error' (liftO_ne_http _ _ _) ?_
      intro readers _
      refine mapE_ne_error ?_
      intro reader _
      exact bindE_ne_error' (ih next reader.neuron_id (depth - 1) s m) (by intro v _; simp)

theorem tb_ne_http (M : Model) (top_k : Int) :
    ∀ (fuel : Nat) (layer neuron depth : Int) (s : Int) (m : String),
      traceBwdF M top_k fuel layer neuron depth ≠ .error (.http s m) := by
  intro fuel
  induction fuel with
  | zero => intro layer neuron depth s m; rw [traceBwdF]; simp
  | succ fuel ih =>
    intro layer neuron depth s m
    rw [tb_succ_eq]
    by_cases hterm : depth = 0 ∨ layer ≤ 0
    · rw [if_pos hterm]; simp
    · rw [if_neg hterm]
      refine bindE_ne_error' ?_ (by intro v _; simp)
      unfold bwdCandSpec
      refine bindE_ne_error' (liftO_ne_http _ _ _) ?_
      intro conns _
      refine joinE_ne_error ?_
      intro x hx
      obtain ⟨ch, hch, rfl⟩ := List.mem_map.mp hx
      refine joinE_ne_error ?_
      intro y hy
      obtain ⟨prev, hprev, rfl⟩ := List.mem_map.mp hy
      refine bindE_ne_error' (liftO_ne_http _ _ _) ?_
      intro writers _
      refine mapE_ne_error ?_
      intro writer _
      exact bindE_ne_error' (ih prev writer.neuron_id (depth - 1) s m) (by intro v _; simp)

theorem tRow_isSome_iff {m : List (List W)} {rows : Nat} {i : Int}
    (hlen : m.length = rows) :
    (tRow m rows i).isSome ↔ -(rows : Int) ≤ i ∧ i < (rows : Int) := by
  unfold tRow
  cases hk : pyIdx rows i with
  | none =>
    have hb := pyIdx_eq_none_iff.mp hk
    simp only [Option.none_bind, Option.isSome_none, Bool.false_eq_true, false_iff]
    omega
  | some k =>
    have hlt := pyIdx_some_lt hk
    have hs : (pyIdx rows i).isSome := by rw [hk]; rfl
    rw [pyIdx_isSome_iff] at hs
    simp only [Option.some_bind]
    have hget : (m.get? k).isSome := by
      rw [List.get?_eq_get (by omega)]; rfl
    rw [List.get?_eq_getElem?] at hget
    simp [hget, hs]

theorem tCol_isSome_iff {m : List (List W)} {cols : Nat} {j : Int}
    (hall : ∀ row ∈ m, row.length = cols) :
    (tCol m cols j).isSome ↔ -(cols : Int) ≤ j ∧ j < (cols : Int) := by
  unfold tCol
  cases hk : pyIdx cols j with
  | none =>
    have hb := pyIdx_eq_none_iff.mp hk
    simp only [Option.none_bind, Option.isSome_none, Bool.false_eq_true, false_iff]
    omega
  | some k =>
    have hlt := pyIdx_some_lt hk
    have hs : (pyIdx cols j).isSome := by rw [hk]; rfl
    rw [pyIdx_isSome_iff] at hs
    simp only [Option.some_bind]
    have hmap : (mapO (fun row => row.get? k) m).isSome := by
      refine mapO_isSome_of ?_
      intro row hrow
      rw [List.get?_eq_get (by rw [hall row hrow]; omega)]; rfl
    simp only [List.get?_eq_getElem?] at hmap
    simp [hmap, hs]

theorem neuron_get_isSome_iff {M : Model} {layer neuron : Int} {L : MLayer}
    (hL : pyGet M.layers layer = some L) (hWF : L.WF) :
    (neuron_get_connected_reschannels M layer neuron).isSome ↔
      -(L.mlpSize : Int) ≤ neuron ∧ neuron < (L.mlpSize : Int) := by
  obtain ⟨h1, h2, h3, h4⟩ := hWF
  unfold neuron_get_connected_reschannels
  rw [hL, Option.some_bind]
  cases htr : tRow L.c_fc L.mlpSize neuron with
  | none =>
    have hb : ¬((tRow L.c_fc L.mlpSize neuron).isSome) := by rw [htr]; simp
    rw [tRow_isSome_iff h1] at hb
    simp only [Option.none_bind, Option.isSome_none, Bool.false_eq_true, false_iff]
    omega
  | some ws =>
    have hb : (tRow L.c_fc L.mlpSize neuron).isSome := by rw [htr]; rfl
    rw [tRow_isSome_iff h1] at hb
    rw [Option.some_bind]
    cases htc : tCol L.c_proj L.mlpSize neuron with
    | none =>
      have hbc : ¬((tCol L.c_proj L.mlpSize neuron).isSome) := by rw [htc]; simp
      rw [tCol_isSome_iff h4] at hbc
      simp only [Option.map_none', Option.isSome_none, Bool.false_eq_true, false_iff]
      omega
    | some ws2 =>
      have hbc : (tCol L.c_proj L.mlpSize neuron).isSome := by rw [htc]; rfl
      rw [tCol_isSome_iff h4] at hbc
      simp only [Option.map_some', Option.isSome_some, true_iff]
      omega

theorem find_reading_isSome_iff {M : Model} {layer ch tk : Int} {L : MLayer}
    (hL : pyGet M.layers layer = some L) (hWF : L.WF) :
    (find_neurons_reading_channel M layer ch tk).isSome ↔
      -(L.dModel : Int) ≤ ch ∧ ch < (L.dModel : Int) := by
  obtain ⟨h1, h2, h3, h4⟩ := hWF
  unfold find_neurons_reading_channel
  rw [hL, Option.some_bind]
  cases htc : tCol L.c_fc L.dModel ch with
  | none =>
    have hbc : ¬((tCol L.c_fc L.dModel ch).isSome) := by rw [htc]; simp
    rw [tCol_isSome_iff h2] at hbc
    simp only [Option.map_none', Option.isSome_none, Bool.false_eq_true, false_iff]
    omega
  | some ws =>
    have hbc : (tCol L.c_fc L.dModel ch).isSome := by rw [htc]; rfl
    rw [tCol_isSome_iff h2] at hbc
    simp only [Option.map_some', Option.isSome_some, true_iff]
    omega

theorem find_writing_isSome_iff {M : Model} {layer ch tk : Int} {L : MLayer}
    (hL : pyGet M.layers layer = some L) (hWF : L.WF) :
    (find_neurons_writing_channel M layer ch tk).isSome ↔
      -(L.dModel : Int) ≤ ch ∧ ch < (L.dModel : Int) := by
  obtain ⟨h1, h2, h3, h4⟩ := hWF
  unfold find_neurons_writing_channel
  rw [hL, Option.some_bind]
  cases htr : tRow L.c_proj L.dModel ch with
  | none =>
    have hb : ¬((tRow L.c_proj L.dModel ch).isSome) := by rw [htr]; simp
    rw [tRow_isSome_iff h3] at hb
    simp only [Option.map_none', Option.isSome_none, Bool.false_eq_true, false_iff]
    omega
  | some ws =>
    have hb : (tRow L.c_proj L.dModel ch).isSome := by rw [htr]; rfl
    rw [tRow_isSome_iff h3] at hb
    simp only [Option.map_some', Option.isSome_some, true_iff]
    omega

theorem layers_pyGet_none {M : Model} {layer : Int}
    (h : layer < -(M.numLayers : Int) ∨ (M.numLayers : Int) ≤ layer) :
    pyGet M.layers layer = none := by
  rw [pyGet_eq_none_iff]
  simpa [Model.numLayers] using h

theorem neuron_get_none_of_layer {M : Model} {layer n : Int}
    (h : layer < -(M.numLayers : Int) ∨ (M.numLayers : Int) ≤ layer) :
    neuron_get_connected_reschannels M layer n = none := by
  unfold neuron_get_connected_reschannels
  rw [layers_pyGet_none h, Option.none_bind]

theorem find_reading_none_of_layer {M : Model} {layer ch tk : Int}
    (h : layer < -(M.numLayers : Int) ∨ (M.numLayers : Int) ≤ layer) :
    find_neurons_reading_channel M layer ch tk = none := by
  unfold find_neurons_reading_channel
  rw [layers_pyGet_none h, Option.none_bind]

theorem find_writing_none_of_layer {M : Model} {layer ch tk : Int}
    (h : layer < -(M.numLayers : Int) ∨ (M.numLayers : Int) ≤ layer) :
    find_neurons_writing_channel M layer ch tk = none := by
  unfold find_neurons_writing_channel
  rw [layers_pyGet_none h, Option.none_bind]

theorem pySlice_zero {α : Type} (l : List α) : pySlice l 0 = [] := by
  unfold pySlice
  simp

theorem pySlice_nil {α : Type} (k : Int) : pySlice ([] : List α) k = [] := by
  unfold pySlice
  split_ifs <;> simp

theorem find_reading_eq_some_ex {M : Model} {layer ch tk : Int} {r : List NEntry}
    (h : find_neurons_reading_channel M layer ch tk = some r) :
    ∃ ws, r = pySlice (sortEntriesByAbs (nonzeroEntries ws)) tk := by
  unfold find_neurons_reading_channel at h
  obtain ⟨L, hL, h2⟩ := Option.bind_eq_some.mp h
  obtain ⟨ws, hws, h3⟩ := Option.map_eq_some'.mp h2
  exact ⟨ws, h3.symm⟩

theorem find_writing_eq_some_ex {M : Model} {layer ch tk : Int} {r : List NEntry}
    (h : find_neurons_writing_channel M layer ch tk = some r) :
    ∃ ws, r = pySlice (sortEntriesByAbs (nonzeroEntries ws)) tk := by
  unfold find_neurons_writing_channel at h
  obtain ⟨L, hL, h2⟩ := Option.bind_eq_some.mp h
  obtain ⟨ws, hws, h3⟩ := Option.map_eq_some'.mp h2
  exact ⟨ws, h3.symm⟩

theorem tcf_depth_zero (M : Model) (l n tk : Int) :
    trace_circuit_forward M l n 0 tk = .ok [] := by
  unfold trace_circuit_forward
  rw [FUEL_eq_succ, tf_terminal (Or.inl rfl), bindE_ok]
  rfl

theorem tcf_last_layer (M : Model) (n d tk : Int) :
    trace_circuit_forward M ((M.numLayers : Int) - 1) n d tk = .ok [] := by
  unfold trace_circuit_forward
  rw [FUEL_eq_succ, tf_terminal (Or.inr (le_refl _)), bindE_ok]
  rfl

theorem tcb_depth_zero (M : Model) (l n tk : Int) :
    trace_circuit_backward M l n 0 tk = .ok [] := by
  unfold trace_circuit_backward
  rw [FUEL_eq_succ, tb_terminal (Or.inl rfl), bindE_ok]
  rfl

theorem tcb_layer_zero (M : Model) (n d tk : Int) :
    trace_circuit_backward M 0 n d tk = .ok [] := by
  unfold trace_circuit_backward
  rw [FUEL_eq_succ, tb_terminal (Or.inr (le_refl _)), bindE_ok]
  rfl

/-- Claim C3: `traceForward` and `traceBackward` return an empty list whenever
`depth = 0`, and `traceForward` at the last layer (`numLayers - 1`) resp.
`traceBackward` at layer `0` return an empty list, regardless of the other
inputs (in particular without touching the matrices). -/
theorem C3_terminal_cases (M : Model) (l n d tk : Int) :
    trace_circuit_forward M l n 0 tk = .ok [] ∧
      trace_circuit_forward M ((M.numLayers : Int) - 1) n d tk = .ok [] ∧
      trace_circuit_backward M l n 0 tk = .ok [] ∧
      trace_circuit_backward M 0 n d tk = .ok [] :=
  ⟨tcf_depth_zero M l n tk, tcf_last_layer M n d tk,
    tcb_depth_zero M l n tk, tcb_layer_zero M n d tk⟩

/-- Claim C9: with fuel `FUEL M = 2 * numLayers + 2` the fuel-indexed traces
never exhaust their fuel, for every integer `depth` argument including
negative ones: each recursive call strictly increases (forward) resp.
decreases (backward) the layer, so the recursion depth is bounded in terms of
`numLayers` independently of `depth`. -/
theorem C9_trace_terminates (M : Model) (tk l n d : Int) :
    traceFwdF M tk (FUEL M) l n d ≠ .error .fuelOut ∧
      traceBwdF M tk (FUEL M) l n d ≠ .error .fuelOut := by
  constructor
  · refine tf_ne_fuelOut M tk (FUEL M) l n d ?_ ?_
    · intro h
      unfold FUEL
      omega
    · intro _
      unfold FUEL
      omega
  · refine tb_ne_fuelOut M tk (FUEL M) l n d ?_ ?_
    · unfold FUEL
      omega
    · intro h1 h2
      unfold FUEL
      omega

/-- Claim C2: at every non-terminal node, the result of a trace step is
exactly the re-rank-and-cut of the candidate list described by the spec
(`fwdCandSpec`: for each top-`topK` out-connection by absolute weight, for
each later layer in increasing order, every reader returned by
`readersOfChannel`, an entry with the `children` field computed by recursion
at `depth - 1`); `traceBackward` is the mirror over in-connections, earlier
layers in decreasing order, and `writersOfChannel`, with field `parents`
(`bwdCandSpec`). -/
theorem C2_candidate_set (M : Model) (tk : Int) (fuel : Nat) (l n d : Int) :
    (¬(d = 0 ∨ (M.numLayers : Int) - 1 ≤ l) →
      traceFwdF M tk (fuel + 1) l n d =
        bindE (fwdCandSpec M tk fuel l n d) (fun cand =>
          .ok (if cand.isEmpty then none
               else some (pySlice (sortFNodes cand) (tk * 2))))) ∧
    (¬(d = 0 ∨ l ≤ 0) →
      traceBwdF M tk (fuel + 1) l n d =
        bindE (bwdCandSpec M tk fuel l n d) (fun cand =>
          .ok (if cand.isEmpty then none
               else some (pySlice (sortBNodes cand) (tk * 2))))) := by
  constructor
  · intro hd
    rw [tf_succ_eq, if_neg hd]
  · intro hd
    rw [tb_succ_eq, if_neg hd]

/-- Witness for C2 on the concrete model `Mex`. -/
theorem C2_candidate_set_witness :
    traceFwdF Mex 1 5 0 0 1 =
        bindE (fwdCandSpec Mex 1 4 0 0 1) (fun cand =>
          .ok (if cand.isEmpty then none
               else some (pySlice (sortFNodes cand) (1 * 2)))) ∧
      traceBwdF Mex 1 5 1 0 1 =
        bindE (bwdCandSpec Mex 1 4 1 0 1) (fun cand =>
          .ok (if cand.isEmpty then none
               else some (pySlice (sortBNodes cand) (1 * 2)))) :=
  ⟨(C2_candidate_set Mex 1 4 0 0 1).1 (by decide),
    (C2_candidate_set Mex 1 4 1 0 1).2 (by decide)⟩

theorem sortFNodes_ne_nil {cand : List FNode} (h : cand ≠ []) :
    sortFNodes cand ≠ [] := by
  intro hc
  have : (sortFNodes cand).length = cand.length :=
    (List.perm_insertionSort _ cand).length_eq
  rw [hc] at this
  exact h (List.length_eq_zero.mp this.symm)

theorem sortBNodes_ne_nil {cand : List BNode} (h : cand ≠ []) :
    sortBNodes cand ≠ [] := by
  intro hc
  have : (sortBNodes cand).length = cand.length :=
    (List.perm_insertionSort _ cand).length_eq
  rw [hc] at this
  exact h (List.length_eq_zero.mp this.symm)

/-- Claim C10: inside the trace tree a node's `children` (resp. `parents`)
field is `None`, never the empty list: the terminal conditions return `None`,
an empty candidate list yields `None`, a trace step never returns
`some []`, and only the top-level call (`trace_circuit_forward`/`backward`)
normalizes `None` to `[]`. -/
theorem C10_null_not_empty (M : Model) (tk : Int) (htk : 1 ≤ tk) :
    (∀ (fuel : Nat) (l n d : Int), (d = 0 ∨ (M.numLayers : Int) - 1 ≤ l) →
      traceFwdF M tk (fuel + 1) l n d = .ok none) ∧
    (∀ (fuel : Nat) (l n d : Int) (r : Option (List FNode)),
      traceFwdF M tk fuel l n d = .ok r → r ≠ some []) ∧
    (∀ (fuel : Nat) (l n d : Int) (r : Option (List FNode)),
      ¬(d = 0 ∨ (M.numLayers : Int) - 1 ≤ l) →
      traceFwdF M tk (fuel + 1) l n d = .ok r →
      fwdCandSpec M tk fuel l n d = .ok [] → r = none) ∧
    (∀ (l n d : Int), traceFwdF M tk (FUEL M) l n d = .ok none →
      trace_circuit_forward M l n d tk = .ok []) ∧
    (∀ (fuel : Nat) (l n d : Int), (d = 0 ∨ l ≤ 0) →
      traceBwdF M tk (fuel + 1) l n d = .ok none) ∧
    (∀ (fuel : Nat) (l n d : Int) (r : Option (List BNode)),
      traceBwdF M tk fuel l n d = .ok r → r ≠ some []) ∧
    (∀ (fuel : Nat) (l n d : Int) (r : Option (List BNode)),
      ¬(d = 0 ∨ l ≤ 0) →
      traceBwdF M tk (fuel + 1) l n d = .ok r →
      bwdCandSpec M tk fuel l n d = .ok [] → r = none) ∧
    (∀ (l n d : Int), traceBwdF M tk (FUEL M) l n d = .ok none →
      trace_circuit_backward M l n d tk = .ok []) := by
  refine ⟨?_, ?_, ?_, ?_, ?_, ?_, ?_, ?_⟩
  · intro fuel l n d h
    exact tf_terminal h
  · intro fuel l n d r h
    cases fuel with
    | zero => rw [traceFwdF] at h; exact absurd h (by simp)
    | succ fuel =>
      rcases tf_ok_cases h with ⟨hr, _⟩ | ⟨cand, _, ⟨_, hr⟩ | ⟨hne, hr⟩⟩
      · rw [hr]; simp
      · rw [hr]; simp
      · rw [hr]
        intro hc
        have hx : pySlice (sortFNodes cand) (tk * 2) = [] := by
          injection hc
        exact pySlice_ne_nil (sortFNodes_ne_nil hne) (by omega) hx
  · intro fuel l n d r hd h hcand
    rw [tf_succ_eq, if_neg hd, hcand, bindE_ok] at h
    simp at h
    exact h.symm
  · intro l n d h
    unfold trace_circuit_forward
    rw [h, bindE_ok]
    rfl
  · intro fuel l n d h
    exact tb_terminal h
  · intro fuel l n d r h
    cases fuel with
    | zero => rw [traceBwdF] at h; exact absurd h (by simp)
    | succ fuel =>
      rcases tb_ok_cases h with ⟨hr, _⟩ | ⟨cand, _, ⟨_, hr⟩ | ⟨hne, hr⟩⟩
      · rw [hr]; simp
      · rw [hr]; simp
      · rw [hr]
        intro hc
        have hx : pySlice (sortBNodes cand) (tk * 2) = [] := by
          injection hc
        exact pySlice_ne_nil (sortBNodes_ne_nil hne) (by omega) hx
  · intro fuel l n d r hd h hcand
    rw [tb_succ_eq, if_neg hd, hcand, bindE_ok] at h
    simp at h
    exact h.symm
  · intro l n d h
    unfold trace_circuit_backward
    rw [h, bindE_ok]
    rfl

/-- Witness for C10 on the concrete model `Mex` with `top_k = 1`. -/
theorem C10_null_not_empty_witness :
    traceFwdF Mex 1 7 1 0 3 = .ok none ∧
      (traceFwdF Mex 1 6 0 0 1 = .ok (some [wNodeF]) →
        (some [wNodeF] : Option (List FNode)) ≠ some []) ∧
      (traceBwdF Mex 1 6 1 0 1 = .ok (some [wNodeB]) →
        (some [wNodeB] : Option (List BNode)) ≠ some []) ∧
      (traceFwdF Mex 1 (FUEL Mex) 1 1 2 = .ok none →
        trace_circuit_forward Mex 1 1 2 1 = .ok []) ∧
      traceBwdF Mex 1 7 0 1 3 = .ok none :=
  ⟨(C10_null_not_empty Mex 1 (by norm_num)).1 6 1 0 3 (by decide),
    fun h => (C10_null_not_empty Mex 1 (by norm_num)).2.1 6 0 0 1 _ h,
    fun h => (C10_null_not_empty Mex 1 (by norm_num)).2.2.2.2.2.1 6 1 0 1 _ h,
    fun h => (C10_null_not_empty Mex 1 (by norm_num)).2.2.2.1 1 1 2 h,
    (C10_null_not_empty Mex 1 (by norm_num)).2.2.2.2.1 6 0 1 3 (by decide)⟩

theorem rank_cut_props {α : Type} (prodW : α → W) {cand res : List α} {tk : Int}
    (htk : 0 ≤ tk)
    (hres : res = pySlice (List.insertionSort (fun a b => prodW b ≤ prodW a) cand) (tk * 2)) :
    res.Pairwise (fun a b => prodW b ≤ prodW a) ∧
      ((res.length : Int) ≤ 2 * tk) ∧
      ∃ rest, (res ++ rest).Perm cand ∧ ∀ b ∈ rest, ∀ a ∈ res, prodW b ≤ prodW a := by
  haveI : IsTotal α (fun a b => prodW b ≤ prodW a) := ⟨fun a b => le_total _ _⟩
  haveI : IsTrans α (fun a b => prodW b ≤ prodW a) :=
    ⟨fun _ _ _ hab hbc => le_trans hbc hab⟩
  have hsorted : (List.insertionSort (fun a b => prodW b ≤ prodW a) cand).Pairwise
      (fun a b => prodW b ≤ prodW a) :=
    List.sorted_insertionSort _ cand
  have h2tk : (0 : Int) ≤ tk * 2 := by omega
  rw [pySlice_of_nonneg h2tk] at hres
  subst hres
  refine ⟨List.Pairwise.sublist (List.take_sublist _ _) hsorted, ?_, ?_⟩
  · have := List.length_take (tk * 2).toNat
      (List.insertionSort (fun a b => prodW b ≤ prodW a) cand)
    omega
  · refine ⟨(List.insertionSort (fun a b => prodW b ≤ prodW a) cand).drop (tk * 2).toNat,
      ?_, ?_⟩
    · rw [List.take_append_drop]
      exact List.perm_insertionSort _ _
    · have hp : ((List.insertionSort (fun a b => prodW b ≤ prodW a) cand).take (tk * 2).toNat ++
          (List.insertionSort (fun a b => prodW b ≤ prodW a) cand).drop (tk * 2).toNat).Pairwise
          (fun a b => prodW b ≤ prodW a) := by
        rw [List.take_append_drop]
        exact hsorted
      have := (List.pairwise_append.mp hp).2.2
      intro b hb a ha
      exact this a ha b hb

/-- Claim C1: at every non-terminal node expansion, the returned entry list of
a trace step is the candidate list (`fwdCandSpec`/`bwdCandSpec`) re-ranked in
non-increasing order of `abs(write_weight) * abs(read_weight)` and cut to at
most `2 * topK` entries; every discarded candidate scores no higher than every
kept entry, so no entry outside the top `2 * topK` by that product appears. -/
theorem C1_rerank_cut (M : Model) (tk : Int) (fuel : Nat) (l n d : Int)
    (htk : 0 ≤ tk) :
    (∀ (r : Option (List FNode)) (cand : List FNode),
      ¬(d = 0 ∨ (M.numLayers : Int) - 1 ≤ l) →
      traceFwdF M tk (fuel + 1) l n d = .ok r →
      fwdCandSpec M tk fuel l n d = .ok cand →
      (r.getD []).Pairwise (fun a b => fprod b ≤ fprod a) ∧
        (((r.getD []).length : Int) ≤ 2 * tk) ∧
        ∃ rest, ((r.getD []) ++ rest).Perm cand ∧
          ∀ b ∈ rest, ∀ a ∈ r.getD [], fprod b ≤ fprod a) ∧
    (∀ (r : Option (List BNode)) (cand : List BNode),
      ¬(d = 0 ∨ l ≤ 0) →
      traceBwdF M tk (fuel + 1) l n d = .ok r →
      bwdCandSpec M tk fuel l n d = .ok cand →
      (r.getD []).Pairwise (fun a b => bprod b ≤ bprod a) ∧
        (((r.getD []).length : Int) ≤ 2 * tk) ∧
        ∃ rest, ((r.getD []) ++ rest).Perm cand ∧
          ∀ b ∈ rest, ∀ a ∈ r.getD [], bprod b ≤ bprod a) := by
  constructor
  · intro r cand hd hr hcand
    rw [tf_succ_eq, if_neg hd, hcand, bindE_ok] at hr
    by_cases hc : cand.isEmpty
    · rw [if_pos hc] at hr
      have hr' : r = none := by
        injection hr with h
        exact h.symm
      have hcand' : cand = [] := List.isEmpty_iff.mp hc
      subst hr'
      subst hcand'
      exact ⟨by simp, by simp; omega, [], by simp, by simp⟩
    · rw [if_neg hc] at hr
      have hr' : r = some (pySlice (sortFNodes cand) (tk * 2)) := by
        injection hr with h
        exact h.symm
      subst hr'
      simp only [Option.getD_some]
      exact rank_cut_props fprod htk rfl
  · intro r cand hd hr hcand
    rw [tb_succ_eq, if_neg hd, hcand, bindE_ok] at hr
    by_cases hc : cand.isEmpty
    · rw [if_pos hc] at hr
      have hr' : r = none := by
        injection hr with h
        exact h.symm
      have hcand' : cand = [] := List.isEmpty_iff.mp hc
      subst hr'
      subst hcand'
      exact ⟨by simp, by simp; omega, [], by simp, by simp⟩
    · rw [if_neg hc] at hr
      have hr' : r = some (pySlice (sortBNodes cand) (tk * 2)) := by
        injection hr with h
        exact h.symm
      subst hr'
      simp only [Option.getD_some]
      exact rank_cut_props bprod htk rfl

/-- Witness for C1 on the concrete model `Mex` with `top_k = 1`, `depth = 1`. -/
theorem C1_rerank_cut_witness :
    (([wNodeF] : List FNode).Pairwise (fun a b => fprod b ≤ fprod a) ∧
        ((([wNodeF] : List FNode).length : Int) ≤ 2 * 1) ∧
        ∃ rest, (([wNodeF] : List FNode) ++ rest).Perm [wNodeF] ∧
          ∀ b ∈ rest, ∀ a ∈ ([wNodeF] : List FNode), fprod b ≤ fprod a) ∧
      (([wNodeB] : List BNode).Pairwise (fun a b => bprod b ≤ bprod a) ∧
        ((([wNodeB] : List BNode).length : Int) ≤ 2 * 1) ∧
        ∃ rest, (([wNodeB] : List BNode) ++ rest).Perm [wNodeB] ∧
          ∀ b ∈ rest, ∀ a ∈ ([wNodeB] : List BNode), bprod b ≤ bprod a) := by
  constructor
  · have h := (C1_rerank_cut Mex 1 4 0 0 1 (by norm_num)).1
      (some [wNodeF]) [wNodeF] (by decide) rfl rfl
    simpa using h
  · have h := (C1_rerank_cut Mex 1 4 1 0 1 (by norm_num)).2
      (some [wNodeB]) [wNodeB] (by decide) rfl rfl
    simpa using h

theorem topk_props {ws : List W} {tk : Int} {r : List NEntry} (htk : 0 < tk)
    (hr : r = pySlice (sortEntriesByAbs (nonzeroEntries ws)) tk) :
    r.Pairwise (fun a b => |b.weight| ≤ |a.weight|) ∧
      ((r.length : Int) ≤ tk) ∧
      (∀ e ∈ r, e.weight ≠ 0) ∧
      r.Pairwise (fun a b => |a.weight| = |b.weight| → a.neuron_id < b.neuron_id) := by
  subst hr
  have hsorted : (sortEntriesByAbs (nonzeroEntries ws)).Pairwise
      (fun a b => |b.weight| ≤ |a.weight|) :=
    List.sorted_insertionSort _ _
  have hsub := pySlice_sublist (sortEntriesByAbs (nonzeroEntries ws)) tk
  refine ⟨List.Pairwise.sublist hsub hsorted, pySlice_length_le (le_of_lt htk), ?_, ?_⟩
  · intro e he
    have he2 : e ∈ sortEntriesByAbs (nonzeroEntries ws) := hsub.mem he
    have he3 : e ∈ nonzeroEntries ws := (List.mem_insertionSort _).mp he2
    exact (nonzeroEntriesFrom_mem he3).1
  · have hlex : (sortEntriesByAbs (nonzeroEntries ws)).Pairwise neLex :=
      sortEntriesByAbs_neLex _ nonzeroEntriesFrom_pairwise
    refine List.Pairwise.sublist hsub (hlex.imp ?_)
    intro a b hab
    rcases hab with h | ⟨h1, h2⟩
    · intro heq
      rw [heq] at h
      exact absurd h (lt_irrefl _)
    · intro _
      exact h2

/-- Claim C4: for `topK > 0`, the lists returned by `readersOfChannel` and
`writersOfChannel` are sorted by non-increasing absolute weight, have at most
`topK` entries, contain only nonzero weights, and break ties between equal
absolute weights by original (neuron-index) order, as a stable sort does. -/
theorem C4_topk_lists (M : Model) (l c tk : Int) (htk : 0 < tk) :
    (∀ r, find_neurons_reading_channel M l c tk = some r →
      r.Pairwise (fun a b => |b.weight| ≤ |a.weight|) ∧
        ((r.length : Int) ≤ tk) ∧
        (∀ e ∈ r, e.weight ≠ 0) ∧
        r.Pairwise (fun a b => |a.weight| = |b.weight| → a.neuron_id < b.neuron_id)) ∧
    (∀ r, find_neurons_writing_channel M l c tk = some r →
      r.Pairwise (fun a b => |b.weight| ≤ |a.weight|) ∧
        ((r.length : Int) ≤ tk) ∧
        (∀ e ∈ r, e.weight ≠ 0) ∧
        r.Pairwise (fun a b => |a.weight| = |b.weight| → a.neuron_id < b.neuron_id)) := by
  constructor
  · intro r h
    obtain ⟨ws, hws⟩ := find_reading_eq_some_ex h
    exact topk_props htk hws
  · intro r h
    obtain ⟨ws, hws⟩ := find_writing_eq_some_ex h
    exact topk_props htk hws

/-- Witness for C4 on the concrete model `Mex`: layer 1 reads channel 1 with
tied absolute weights `5` and `-5`, kept in neuron-index order. -/
theorem C4_topk_lists_witness :
    ([⟨0, 5⟩, ⟨1, -5⟩] : List NEntry).Pairwise (fun a b => |b.weight| ≤ |a.weight|) ∧
      ((([⟨0, 5⟩, ⟨1, -5⟩] : List NEntry).length : Int) ≤ 3) ∧
      (∀ e ∈ ([⟨0, 5⟩, ⟨1, -5⟩] : List NEntry), e.weight ≠ 0) ∧
      ([⟨0, 5⟩, ⟨1, -5⟩] : List NEntry).Pairwise
        (fun a b => |a.weight| = |b.weight| → a.neuron_id < b.neuron_id) :=
  (C4_topk_lists Mex 1 1 3 (by norm_num)).1 [⟨0, 5⟩, ⟨1, -5⟩] (by decide)

/-- Counterexample to claim C5 as stated: the extractors do NOT fail on every
negative index — Python indexing wraps indices in `[-size, -1]`, so
`neuron_get_connected_reschannels(-1, 0)` on the two-layer model `Mex`
succeeds (returning the connections of the last layer's neuron 0). -/
theorem C5_counterexample :
    (neuron_get_connected_reschannels Mex (-1) 0).isSome = true := by decide

/-- Claim C5 (amended): the three extractors fail exactly when an index falls
outside `[-size, size)` for the corresponding dimension: indices `≥ size` or
`< -size` raise, indices in `[-size, -1]` wrap Python-style and succeed, and
in-range indices always succeed (on well-formed matrices). -/
theorem C5_index_errors (M : Model) (hWF : M.WF) :
    (∀ (layer n : Int),
      (layer < -(M.numLayers : Int) ∨ (M.numLayers : Int) ≤ layer) →
      neuron_get_connected_reschannels M layer n = none ∧
        (∀ tk, find_neurons_reading_channel M layer n tk = none) ∧
        (∀ tk, find_neurons_writing_channel M layer n tk = none)) ∧
    (∀ (layer n : Int) (L : MLayer), pyGet M.layers layer = some L →
      ((neuron_get_connected_reschannels M layer n).isSome ↔
        -(L.mlpSize : Int) ≤ n ∧ n < (L.mlpSize : Int)) ∧
      (∀ tk, (find_neurons_reading_channel M layer n tk).isSome ↔
        -(L.dModel : Int) ≤ n ∧ n < (L.dModel : Int)) ∧
      (∀ tk, (find_neurons_writing_channel M layer n tk).isSome ↔
        -(L.dModel : Int) ≤ n ∧ n < (L.dModel : Int))) := by
  constructor
  · intro layer n h
    exact ⟨neuron_get_none_of_layer h,
      fun tk => find_reading_none_of_layer h,
      fun tk => find_writing_none_of_layer h⟩
  · intro layer n L hL
    have hLWF : L.WF := (hWF L (pyGet_some_mem hL)).1
    exact ⟨neuron_get_isSome_iff hL hLWF,
      fun tk => find_reading_isSome_iff hL hLWF,
      fun tk => find_writing_isSome_iff hL hLWF⟩

/-- Witness for the amended C5 on the concrete model `Mex`. -/
theorem C5_index_errors_witness :
    (neuron_get_connected_reschannels Mex 7 0 = none ∧
      (∀ tk, find_neurons_reading_channel Mex 7 0 tk = none) ∧
      (∀ tk, find_neurons_writing_channel Mex 7 0 tk = none)) ∧
    ((neuron_get_connected_reschannels Mex 1 1).isSome ↔
      -((MexL1.mlpSize : Int)) ≤ 1 ∧ 1 < (MexL1.mlpSize : Int)) :=
  ⟨(C5_index_errors Mex (by decide)).1 7 0 (by decide),
    ((C5_index_errors Mex (by decide)).2 1 1 MexL1 rfl).1⟩

/-- Counterexample to claim C6 as stated: `topK = -1` does not yield an empty
list — Python slicing `xs[:-1]` drops only the last element, so on `Mex`
channel 1 at layer 1 (two nonzero readers) one reader is returned. -/
theorem C6_counterexample :
    find_neurons_reading_channel Mex 1 1 (-1) = some [⟨0, 5⟩] := by decide

/-- Claim C6 (amended): for `topK = 0` the channel extractors return `[]`
without raising; whether they raise never depends on `topK`; but a negative
`topK` follows Python slice semantics and returns the sorted nonzero list
with its last `-topK` entries dropped, which is non-empty whenever the
channel has more than `-topK` nonzero entries. -/
theorem C6_topk_nonpositive (M : Model) (l c : Int) :
    (∀ r, find_neurons_reading_channel M l c 0 = some r → r = []) ∧
    (∀ r, find_neurons_writing_channel M l c 0 = some r → r = []) ∧
    (∀ tk tk', (find_neurons_reading_channel M l c tk).isSome =
      (find_neurons_reading_channel M l c tk').isSome) ∧
    (∀ tk tk', (find_neurons_writing_channel M l c tk).isSome =
      (find_neurons_writing_channel M l c tk').isSome) ∧
    (∀ (tk : Int), tk < 0 → ∀ r, find_neurons_reading_channel M l c tk = some r →
      ∃ full, find_neurons_reading_channel M l c ((full.length : Int)) = some full ∧
        r = full.take (full.length - (-tk).toNat)) ∧
    (∀ (tk : Int), tk < 0 → ∀ r, find_neurons_writing_channel M l c tk = some r →
      ∃ full, find_neurons_writing_channel M l c ((full.length : Int)) = some full ∧
        r = full.take (full.length - (-tk).toNat)) := by
  refine ⟨?_, ?_, ?_, ?_, ?_, ?_⟩
  · intro r h
    obtain ⟨ws, hws⟩ := find_reading_eq_some_ex h
    rw [hws, pySlice_zero]
  · intro r h
    obtain ⟨ws, hws⟩ := find_writing_eq_some_ex h
    rw [hws, pySlice_zero]
  · intro tk tk'
    unfold find_neurons_reading_channel
    cases pyGet M.layers l with
    | none => rfl
    | some L =>
      simp only [Option.some_bind]
      cases tCol L.c_fc L.dModel c <;> rfl
  · intro tk tk'
    unfold find_neurons_writing_channel
    cases pyGet M.layers l with
    | none => rfl
    | some L =>
      simp only [Option.some_bind]
      cases tRow L.c_proj L.dModel c <;> rfl
  · intro tk htk r h
    unfold find_neurons_reading_channel at h
    obtain ⟨L, hL, hmap⟩ := Option.bind_eq_some.mp h
    obtain ⟨ws, hws, hr⟩ := Option.map_eq_some'.mp hmap
    refine ⟨sortEntriesByAbs (nonzeroEntries ws), ?_, ?_⟩
    · unfold find_neurons_reading_channel
      rw [hL, Option.some_bind, hws, Option.map_some']
      rw [pySlice_of_nonneg (Int.ofNat_nonneg _)]
      simp
    · rw [← hr]
      unfold pySlice
      rw [if_neg (by omega)]
      congr 1
      omega
  · intro tk htk r h
    unfold find_neurons_writing_channel at h
    obtain ⟨L, hL, hmap⟩ := Option.bind_eq_some.mp h
    obtain ⟨ws, hws, hr⟩ := Option.map_eq_some'.mp hmap
    refine ⟨sortEntriesByAbs (nonzeroEntries ws), ?_, ?_⟩
    · unfold find_neurons_writing_channel
      rw [hL, Option.some_bind, hws, Option.map_some']
      rw [pySlice_of_nonneg (Int.ofNat_nonneg _)]
      simp
    · rw [← hr]
      unfold pySlice
      rw [if_neg (by omega)]
      congr 1
      omega

/-- Witness for the amended C6 on the concrete model `Mex`. -/
theorem C6_topk_nonpositive_witness :
    (([] : List NEntry) = [] ) ∧
      ((find_neurons_reading_channel Mex 1 1 (-5)).isSome =
        (find_neurons_reading_channel Mex 1 1 3).isSome) ∧
      (∃ full, find_neurons_reading_channel Mex 1 1 ((full.length : Int)) = some full ∧
        ([⟨0, 5⟩] : List NEntry) = full.take (full.length - ((-(-1) : Int)).toNat)) :=
  ⟨(C6_topk_nonpositive Mex 1 1).1 [] (by decide),
    (C6_topk_nonpositive Mex 1 1).2.2.1 (-5) 3,
    (C6_topk_nonpositive Mex 1 1).2.2.2.2.1 (-1) (by norm_num) [⟨0, 5⟩] (by decide)⟩

/-- Claim C7: `getNeuronConnections` responds with HTTP 400 and a message
stating the valid range exactly when `layer` is outside `[0, numLayers)` or
`neuron` is outside `[0, mlpSize(layer))` (checking the layer first and
computing no trace in that case); otherwise its value is
`{layer, neuron, trace_forward, trace_backward}` built from the two traces. -/
theorem C7_neuron_validation (M : Model) (l n d k : Int) :
    ((l < 0 ∨ (M.numLayers : Int) ≤ l) →
      get_neuron_connections M l n d k =
        .error (.http 400 (layerMsg (M.numLayers : Int)))) ∧
    (¬(l < 0 ∨ (M.numLayers : Int) ≤ l) → ∃ L, pyGet M.layers l = some L) ∧
    (∀ L, ¬(l < 0 ∨ (M.numLayers : Int) ≤ l) → pyGet M.layers l = some L →
      (n < 0 ∨ (L.mlpSize : Int) ≤ n) →
      get_neuron_connections M l n d k =
        .error (.http 400 (neuronMsg (L.mlpSize : Int)))) ∧
    (∀ L, ¬(l < 0 ∨ (M.numLayers : Int) ≤ l) → pyGet M.layers l = some L →
      ¬(n < 0 ∨ (L.mlpSize : Int) ≤ n) →
      (∀ (s : Int) (msg : String),
        get_neuron_connections M l n d k ≠ .error (.http s msg)) ∧
      (∀ resp, get_neuron_connections M l n d k = .ok resp ↔
        ∃ tf tb, trace_circuit_forward M l n d k = .ok tf ∧
          trace_circuit_backward M l n d k = .ok tb ∧
          resp = ⟨l, n, tf, tb⟩)) := by
  refine ⟨?_, ?_, ?_, ?_⟩
  · intro h
    unfold get_neuron_connections
    rw [if_pos h]
  · intro h
    have hb : ¬(l < 0 ∨ ((M.layers.length : Int)) ≤ l) := by
      simpa [Model.numLayers] using h
    have hs : (pyGet M.layers l).isSome := by
      rw [pyGet_isSome_iff]
      omega
    exact Option.isSome_iff_exists.mp hs
  · intro L hout hL hn
    unfold get_neuron_connections
    rw [if_neg hout, hL, liftO_some, bindE_ok, if_pos hn]
  · intro L hout hL hn
    unfold get_neuron_connections
    rw [if_neg hout, hL, liftO_some, bindE_ok, if_neg hn]
    constructor
    · intro s msg
      refine bindE_ne_error' ?_ ?_
      · unfold trace_circuit_forward
        exact bindE_ne_error' (tf_ne_http M k (FUEL M) l n d s msg) (by intro v _; simp)
      · intro tf _
        refine bindE_ne_error' ?_ (by intro v _; simp)
        unfold trace_circuit_backward
        exact bindE_ne_error' (tb_ne_http M k (FUEL M) l n d s msg) (by intro v _; simp)
    · intro resp
      constructor
      · intro h
        obtain ⟨tf, htf, h2⟩ := bindE_eq_ok_iff.mp h
        obtain ⟨tb, htb, h3⟩ := bindE_eq_ok_iff.mp h2
        injection h3 with h3
        exact ⟨tf, tb, htf, htb, h3.symm⟩
      · rintro ⟨tf, tb, htf, htb, rfl⟩
        rw [htf, bindE_ok, htb, bindE_ok]

/-- Witness for C7 on the concrete model `Mex`. -/
theorem C7_neuron_validation_witness :
    get_neuron_connections Mex 5 0 2 1 =
        .error (.http 400 (layerMsg (Mex.numLayers : Int))) ∧
      get_neuron_connections Mex 1 7 2 1 =
        .error (.http 400 (neuronMsg (MexL1.mlpSize : Int))) ∧
      (get_neuron_connections Mex 1 0 2 1 = .ok ⟨1, 0, [], [wNodeB]⟩ ↔
        ∃ tf tb, trace_circuit_forward Mex 1 0 2 1 = .ok tf ∧
          trace_circuit_backward Mex 1 0 2 1 = .ok tb ∧
          (⟨1, 0, [], [wNodeB]⟩ : NeuronResp) = ⟨1, 0, tf, tb⟩) :=
  ⟨(C7_neuron_validation Mex 5 0 2 1).1 (by decide),
    (C7_neuron_validation Mex 1 7 2 1).2.2.1 MexL1 (by decide) rfl (by decide),
    ((C7_neuron_validation Mex 1 0 2 1).2.2.2 MexL1 (by decide) rfl (by decide)).2
      ⟨1, 0, [], [wNodeB]⟩⟩

theorem chanTriple_ok_iff {M : Model} {ch tk : Int} {i : Nat}
    {t : Nat × List NEntry × List NEntry} :
    chanTriple M ch tk i = .ok t ↔
      ∃ r w, find_neurons_reading_channel M (i : Int) ch tk = some r ∧
        find_neurons_writing_channel M (i : Int) ch tk = some w ∧ t = (i, r, w) := by
  unfold chanTriple
  cases hfr : find_neurons_reading_channel M (i : Int) ch tk with
  | none => rw [liftO_none, bindE_error]; simp
  | some r =>
    rw [liftO_some, bindE_ok]
    cases hfw : find_neurons_writing_channel M (i : Int) ch tk with
    | none => rw [liftO_none, bindE_error]; simp
    | some w =>
      rw [liftO_some, bindE_ok]
      simp only [Except.ok.injEq]
      constructor
      · intro h
        exact ⟨r, w, rfl, rfl, h.symm⟩
      · rintro ⟨r', w', hr', hw', rfl⟩
        injection hr' with h1
        injection hw' with h2
        rw [← h1, ← h2]

theorem finds_ok_of_range {M : Model} {ch tk : Int} {L0 : MLayer}
    (hWF : M.WF) (hL0 : pyGet M.layers 0 = some L0)
    (hch1 : 0 ≤ ch) (hch2 : ch < (L0.dModel : Int)) (i : Nat) (hi : i < M.numLayers) :
    ∃ r w, find_neurons_reading_channel M (i : Int) ch tk = some r ∧
      find_neurons_writing_channel M (i : Int) ch tk = some w := by
  have hsi : (pyGet M.layers (i : Int)).isSome := by
    rw [pyGet_isSome_iff]
    unfold Model.numLayers at hi
    omega
  obtain ⟨L, hL⟩ := Option.isSome_iff_exists.mp hsi
  have hmem := pyGet_some_mem hL
  have hLWF := (hWF L hmem).1
  have hdm : L.dModel = L0.dModel :=
    ((hWF L hmem).2).trans ((hWF L0 (pyGet_some_mem hL0)).2).symm
  have hr : (find_neurons_reading_channel M (i : Int) ch tk).isSome := by
    rw [find_reading_isSome_iff hL hLWF, hdm]
    omega
  have hw : (find_neurons_writing_channel M (i : Int) ch tk).isSome := by
    rw [find_writing_isSome_iff hL hLWF, hdm]
    omega
  obtain ⟨r, hr'⟩ := Option.isSome_iff_exists.mp hr
  obtain ⟨w, hw'⟩ := Option.isSome_iff_exists.mp hw
  exact ⟨r, w, hr', hw'⟩

theorem find_reading_zero {M : Model} {layer ch tk : Int} {r : List NEntry}
    (hch : 0 ≤ ch)
    (hz : ∀ L ∈ M.layers, ∀ row ∈ L.c_fc, row.getD ch.toNat 0 = 0)
    (h : find_neurons_reading_channel M layer ch tk = some r) : r = [] := by
  unfold find_neurons_reading_channel at h
  obtain ⟨L, hL, hmap⟩ := Option.bind_eq_some.mp h
  obtain ⟨ws, hws, hr⟩ := Option.map_eq_some'.mp hmap
  unfold tCol at hws
  obtain ⟨k, hk, hmapo⟩ := Option.bind_eq_some.mp hws
  have hkch : k = ch.toNat := by
    rcases pyIdx_eq_some_iff.mp hk with ⟨_, _, h3⟩ | ⟨h1, _, _⟩
    · exact h3
    · omega
  subst hkch
  have hwz : ∀ w ∈ ws, w = 0 := by
    intro w hw
    obtain ⟨row, hrow, hget⟩ := mapO_some_mem hmapo w hw
    have hzl := hz L (pyGet_some_mem hL) row hrow
    rw [List.getD_eq_getD_get?, hget] at hzl
    simpa using hzl
  rw [← hr]
  unfold nonzeroEntries
  rw [nonzeroEntriesFrom_eq_nil hwz]
  rw [show sortEntriesByAbs [] = [] from rfl, pySlice_nil]

theorem find_writing_zero {M : Model} {layer ch tk : Int} {r : List NEntry}
    (hch : 0 ≤ ch)
    (hz : ∀ L ∈ M.layers, ∀ w ∈ L.c_proj.getD ch.toNat [], w = 0)
    (h : find_neurons_writing_channel M layer ch tk = some r) : r = [] := by
  unfold find_neurons_writing_channel at h
  obtain ⟨L, hL, hmap⟩ := Option.bind_eq_some.mp h
  obtain ⟨ws, hws, hr⟩ := Option.map_eq_some'.mp hmap
  unfold tRow at hws
  obtain ⟨k, hk, hget⟩ := Option.bind_eq_some.mp hws
  have hkch : k = ch.toNat := by
    rcases pyIdx_eq_some_iff.mp hk with ⟨_, _, h3⟩ | ⟨h1, _, _⟩
    · exact h3
    · omega
  subst hkch
  have hgd : L.c_proj.getD ch.toNat [] = ws := by
    rw [List.getD_eq_getD_get?, hget]
    rfl
  have hwz : ∀ w ∈ ws, w = 0 := by
    intro w hw
    refine hz L (pyGet_some_mem hL) w ?_
    rw [hgd]
    exact hw
  rw [← hr]
  unfold nonzeroEntries
  rw [nonzeroEntriesFrom_eq_nil hwz]
  rw [show sortEntriesByAbs [] = [] from rfl, pySlice_nil]

/-- Claim C8: for an in-range channel, `getChannelConnections` returns
`{channel_id, readers_by_layer, writers_by_layer}` where a layer index is a
key of `readers_by_layer` (resp. `writers_by_layer`) exactly when that
layer's `readersOfChannel` (resp. `writersOfChannel`) result is non-empty; a
channel that is everywhere zero yields two empty mappings, and an
out-of-range channel fails with HTTP 400 stating the valid range. -/
theorem C8_channel_map (M : Model) (ch tk : Int) (hWF : M.WF) :
    ∀ L0, pyGet M.layers 0 = some L0 →
      ((ch < 0 ∨ (L0.dModel : Int) ≤ ch) →
        get_channel_connections M ch tk =
          .error (.http 400 (channelMsg (L0.dModel : Int)))) ∧
      (¬(ch < 0 ∨ (L0.dModel : Int) ≤ ch) →
        ∃ resp, get_channel_connections M ch tk = .ok resp ∧
          resp.channel_id = ch ∧
          (∀ (i : Nat) (r : List NEntry),
            ((i, r) ∈ resp.readers_by_layer ↔
              find_neurons_reading_channel M (i : Int) ch tk = some r ∧ r ≠ []) ∧
            ((i, r) ∈ resp.writers_by_layer ↔
              find_neurons_writing_channel M (i : Int) ch tk = some r ∧ r ≠ [])) ∧
          ((∀ L ∈ M.layers,
              (∀ row ∈ L.c_fc, row.getD ch.toNat 0 = 0) ∧
              (∀ w ∈ L.c_proj.getD ch.toNat [], w = 0)) →
            resp.readers_by_layer = [] ∧ resp.writers_by_layer = [])) := by
  intro L0 hL0
  constructor
  · intro hout
    unfold get_channel_connections
    rw [hL0, liftO_some, bindE_ok, if_pos hout]
  · intro hin
    have hch1 : 0 ≤ ch := by omega
    have hch2 : ch < (L0.dModel : Int) := by omega
    have hex : ∀ i ∈ List.range M.numLayers, ∃ t, chanTriple M ch tk i = .ok t := by
      intro i hi
      rw [List.mem_range] at hi
      obtain ⟨r, w, hr, hw⟩ := finds_ok_of_range hWF hL0 hch1 hch2 i hi
      exact ⟨(i, r, w), chanTriple_ok_iff.mpr ⟨r, w, hr, hw, rfl⟩⟩
    obtain ⟨triples, htriples⟩ := mapE_isOk_of hex
    refine ⟨⟨ch,
        triples.filterMap (fun t => if t.2.1.isEmpty then none else some (t.1, t.2.1)),
        triples.filterMap (fun t => if t.2.2.isEmpty then none else some (t.1, t.2.2))⟩,
      ?_, rfl, ?_, ?_⟩
    · unfold get_channel_connections
      rw [hL0, liftO_some, bindE_ok, if_neg hin, htriples, bindE_ok]
    · intro i r
      constructor
      · constructor
        · intro hmem
          obtain ⟨t, ht, hg⟩ := List.mem_filterMap.mp hmem
          by_cases he : t.2.1.isEmpty
          · rw [if_pos he] at hg
            exact absurd hg (by simp)
          · rw [if_neg he] at hg
            injection hg with hg
            obtain ⟨j, hj, hok⟩ := (mapE_ok_mem_iff htriples t).mp ht
            obtain ⟨r', w', hr', hw', rfl⟩ := chanTriple_ok_iff.mp hok
            rw [Prod.mk.injEq] at hg
            obtain ⟨hji, hrr⟩ := hg
            subst hji
            subst hrr
            refine ⟨hr', ?_⟩
            intro hnil
            exact he (by rw [hnil]; rfl)
        · rintro ⟨hfr, hne⟩
          have hilt : i < M.numLayers := by
            by_contra hge
            have hnone : find_neurons_reading_channel M (i : Int) ch tk = none := by
              refine find_reading_none_of_layer (Or.inr ?_)
              unfold Model.numLayers at hge ⊢
              omega
            rw [hnone] at hfr
            exact absurd hfr (by simp)
          obtain ⟨r0, w0, hr0, hw0⟩ := finds_ok_of_range hWF hL0 hch1 hch2 i hilt
          rw [hfr] at hr0
          injection hr0 with hr0
          subst hr0
          refine List.mem_filterMap.mpr ⟨(i, r, w0), ?_, ?_⟩
          · exact (mapE_ok_mem_iff htriples _).mpr
              ⟨i, List.mem_range.mpr hilt, chanTriple_ok_iff.mpr ⟨r, w0, hfr, hw0, rfl⟩⟩
          · rw [if_neg (by simpa using hne)]
      · constructor
        · intro hmem
          obtain ⟨t, ht, hg⟩ := List.mem_filterMap.mp hmem
          by_cases he : t.2.2.isEmpty
          · rw [if_pos he] at hg
            exact absurd hg (by simp)
          · rw [if_neg he] at hg
            injection hg with hg
            obtain ⟨j, hj, hok⟩ := (mapE_ok_mem_iff htriples t).mp ht
            obtain ⟨r', w', hr', hw', rfl⟩ := chanTriple_ok_iff.mp hok
            rw [Prod.mk.injEq] at hg
            obtain ⟨hji, hrr⟩ := hg
            subst hji
            subst hrr
            refine ⟨hw', ?_⟩
            intro hnil
            exact he (by rw [hnil]; rfl)
        · rintro ⟨hfw, hne⟩
          have hilt : i < M.numLayers := by
            by_contra hge
            have hnone : find_neurons_writing_channel M (i : Int) ch tk = none := by
              refine find_writing_none_of_layer (Or.inr ?_)
              unfold Model.numLayers at hge ⊢
              omega
            rw [hnone] at hfw
            exact absurd hfw (by simp)
          obtain ⟨r0, w0, hr0, hw0⟩ := finds_ok_of_range hWF hL0 hch1 hch2 i hilt
          rw [hfw] at hw0
          injection hw0 with hw0
          subst hw0
          refine List.mem_filterMap.mpr ⟨(i, r0, r), ?_, ?_⟩
          · exact (mapE_ok_mem_iff htriples _).mpr
              ⟨i, List.mem_range.mpr hilt, chanTriple_ok_iff.mpr ⟨r0, r, hr0, hfw, rfl⟩⟩
          · rw [if_neg (by simpa using hne)]
    · intro hz
      constructor
      · rw [List.filterMap_eq_nil_iff]
        intro t ht
        obtain ⟨j, hj, hok⟩ := (mapE_ok_mem_iff htriples t).mp ht
        obtain ⟨r', w', hr', hw', rfl⟩ := chanTriple_ok_iff.mp hok
        have hnil : r' = [] :=
          find_reading_zero hch1 (fun L hL row hrow => (hz L hL).1 row hrow) hr'
        simp [hnil]
      · rw [List.filterMap_eq_nil_iff]
        intro t ht
        obtain ⟨j, hj, hok⟩ := (mapE_ok_mem_iff htriples t).mp ht
        obtain ⟨r', w', hr', hw', rfl⟩ := chanTriple_ok_iff.mp hok
        have hnil : w' = [] :=
          find_writing_zero hch1 (fun L hL w hw => (hz L hL).2 w hw) hw'
        simp [hnil]

/-- Witness for C8 on the concrete model `Mex`: out-of-range channel 9,
in-range channel 0, and the everywhere-zero channel 3. -/
theorem C8_channel_map_witness :
    get_channel_connections Mex 9 10 =
        .error (.http 400 (channelMsg (MexL0.dModel : Int))) ∧
      (∃ resp, get_channel_connections Mex 0 10 = .ok resp ∧
        resp.channel_id = 0 ∧
        (∀ (i : Nat) (r : List NEntry),
          ((i, r) ∈ resp.readers_by_layer ↔
            find_neurons_reading_channel Mex (i : Int) 0 10 = some r ∧ r ≠ []) ∧
          ((i, r) ∈ resp.writers_by_layer ↔
            find_neurons_writing_channel Mex (i : Int) 0 10 = some r ∧ r ≠ [])) ∧
        ((∀ L ∈ Mex.layers,
            (∀ row ∈ L.c_fc, row.getD (0 : Int).toNat 0 = 0) ∧
            (∀ w ∈ L.c_proj.getD (0 : Int).toNat [], w = 0)) →
          resp.readers_by_layer = [] ∧ resp.writers_by_layer = [])) ∧
      (∃ resp, get_channel_connections Mex 3 10 = .ok resp ∧
        resp.channel_id = 3 ∧
        (∀ (i : Nat) (r : List NEntry),
          ((i, r) ∈ resp.readers_by_layer ↔
            find_neurons_reading_channel Mex (i : Int) 3 10 = some r ∧ r ≠ []) ∧
          ((i, r) ∈ resp.writers_by_layer ↔
            find_neurons_writing_channel Mex (i : Int) 3 10 = some r ∧ r ≠ [])) ∧
        ((∀ L ∈ Mex.layers,
            (∀ row ∈ L.c_fc, row.getD (3 : Int).toNat 0 = 0) ∧
            (∀ w ∈ L.c_proj.getD (3 : Int).toNat [], w = 0)) →
          resp.readers_by_layer = [] ∧ resp.writers_by_layer = [])) :=
  ⟨(C8_channel_map Mex 9 10 (by decide) MexL0 rfl).1 (by decide),
    (C8_channel_map Mex 0 10 (by decide) MexL0 rfl).2 (by decide),
    (C8_channel_map Mex 3 10 (by decide) MexL0 rfl).2 (by decide)⟩

/-- Witness for C9 on the concrete model `Mex` with a negative depth. -/
theorem C9_trace_terminates_witness :
    traceFwdF Mex 1 (FUEL Mex) 0 0 (-5) ≠ .error .fuelOut ∧
      traceBwdF Mex 1 (FUEL Mex) 0 0 (-5) ≠ .error .fuelOut :=
  C9_trace_terminates Mex 1 0 0 (-5)
